import Mathlib

set_option maxRecDepth 20000

/-!
Verification of the `windows` path-parsing package (`path.go`).

The Go source is shallowly embedded below: the parser `newPathImpl` is a
state machine over the rune array built from the input string, modelled as
a step function `step` on configurations iterated with explicit fuel.
Go panics (out-of-range slice writes and reads) are modelled by `Option` /
the `Res.panic` outcome, and machine integers by `Int` / `Nat`.
-/

namespace Windows

/-- Mirror of the Go struct `PathImpl` (field for field, in source order).
Errors are recorded as their Go message strings. -/
structure PathImpl where
  node : String
  device : String
  name : String
  dirs : List String
  absolute : Bool
  unc : Bool
  unicode : Bool
  errs : List String
  deriving DecidableEq, Repr

/-- The zero value `&PathImpl{}` that `newPathImpl` starts from. -/
def emptyPath : PathImpl := ⟨"", "", "", [], false, false, false, []⟩

/-- Message of the error returned by `isPathNameLetter` for a reserved character. -/
def errReserved : String := "isPathNameLetter: a reserved character is present"

/-- Message of the error returned by `isPathNameLetter` for the NUL rune. -/
def errNull : String := "isPathNameLetter: a NULL rune is present"

/-- Message of the error returned by `isPathNameLetter` for a control rune. -/
def errControl : String := "isPathNameLetter: an invalid rune is present; unless a File Stream"

/-- Message appended when a UNICODE (extended-length) path exceeds 32767 bytes. -/
def errTooLongUnicode : String := "Path: the UNICODE path exceeds the maximum of 32,767 characters"

/-- Message appended when a non-extended path exceeds 255 bytes. -/
def errTooLong : String := "Path: the path exceeds the maximum of 255 characters"

/-- Mirror of Go `isDriveLetter`: lower-case letters are upper-cased, upper-case
letters pass through; anything else is an error (modelled as `none`; the Go
rune result `-1` of the error branch is never read by the caller). -/
def isDriveLetter (c : Char) : Option Char :=
  if 'a' ≤ c ∧ c ≤ 'z' then some (Char.ofNat (c.toNat - 32))
  else if 'A' ≤ c ∧ c ≤ 'Z' then some c
  else none

/-- Mirror of Go `isPathNameLetter`, returning the error component of its
result (`none` = `nil`); the rune component is never used by `newPathImpl`. -/
def isPathNameLetter (c : Char) : Option String :=
  if c = '<' ∨ c = '>' ∨ c = ':' ∨ c = '"' ∨ c = '/' ∨ c = '\\' ∨ c = '|' ∨ c = '?' ∨ c = '*' then
    some errReserved
  else if c.toNat = 0 then some errNull
  else if 1 ≤ c.toNat ∧ c.toNat ≤ 31 then some errControl
  else none

/-- Number of bytes of the UTF-8 encoding of a scalar: the amount by which the
byte index of Go's `range` over a string advances, and the scalar's
contribution to Go `len` of a string. -/
def utf8Size (c : Char) : Nat :=
  if c.toNat < 128 then 1 else if c.toNat < 2048 then 2
  else if c.toNat < 65536 then 3 else 4

/-- Go `len` of the string holding these runes (UTF-8 byte count). -/
def goLen (cs : List Char) : Nat := (cs.map utf8Size).sum

/-- The loop `for index, runeValue := range path { runeArray[index] = runeValue }`:
`index` is the BYTE offset of the rune, while `runeArray` has one slot per
rune; a write beyond the slice bound is a Go panic, modelled as `none`. -/
def fillRuneArray : List Char → Nat → List Char → Option (List Char)
  | [], _, arr => some arr
  | c :: rest, off, arr =>
    if off < arr.length then
      fillRuneArray rest (off + utf8Size c) (arr.set off c)
    else none

/-- Construction of `runeArray` in `newPathImpl`: a slice of
`utf8.RuneCountInString(path)` zero runes filled by byte offset. -/
def buildRuneArray (cs : List Char) : Option (List Char) :=
  fillRuneArray cs 0 (List.replicate cs.length (Char.ofNat 0))

/-- The states of the parsing loop (`stateStart` … `statePathComponent`). -/
inductive ParseState where
  | stateStart
  | stateUNC
  | stateDrive
  | statePathComponent
  deriving DecidableEq, Repr

/-- The sub-states used while parsing a UNC prefix (`substateStart` …). -/
inductive ParseSubState where
  | substateStart
  | substateUnicode
  | substateUnicodeUNC
  deriving DecidableEq, Repr

open ParseState ParseSubState

/-- The mutable locals of the parsing loop in `newPathImpl`. -/
structure Config where
  curIdx : Int
  curState : ParseState
  curSubState : ParseSubState
  curStack : List Char
  path : PathImpl
  deriving DecidableEq, Repr

/-- `runeArray[i]` with Go semantics: `none` when the access would panic
(negative or past-the-end index). -/
def runeAt (arr : List Char) (i : Int) : Option Char :=
  if 0 ≤ i then (arr.drop i.toNat).head? else none

/-- Append the `isPathNameLetter` error for `c`, if any, to the error list
(the `if _, err := isPathNameLetter(…); err != nil` pattern). -/
def noteErr (p : PathImpl) (c : Char) : PathImpl :=
  match isPathNameLetter c with
  | some e => { p with errs := p.errs ++ [e] }
  | none => p

/-- One entry of the loop `loopStart` in `newPathImpl`: from the current
configuration to the next one (the target of the next `goto loopStart` or of
the loop's own back edge after `curIdx++`), or `none` for a Go panic.
Only called when `curIdx < len(runeArray)`. -/
def step (arr : List Char) (cfg : Config) : Option Config :=
  match runeAt arr cfg.curIdx with
  | none => none
  | some c =>
    match cfg.curState with
    | stateStart =>
      if c = '\\' ∧ runeAt arr (cfg.curIdx + 1) = some '\\' then
        -- UNC path: curIdx++ then the loop's curIdx++
        some ⟨cfg.curIdx + 2, stateUNC, cfg.curSubState, cfg.curStack, cfg.path⟩
      else if c = '\\' then
        -- absolute path
        some ⟨cfg.curIdx + 1, statePathComponent, cfg.curSubState, cfg.curStack,
          { cfg.path with absolute := true }⟩
      else
        -- goto loopStart with curState = stateDrive
        some ⟨cfg.curIdx, stateDrive, cfg.curSubState, cfg.curStack, cfg.path⟩
    | stateDrive =>
      match isDriveLetter c with
      | some d =>
        if runeAt arr (cfg.curIdx + 1) = some ':' then
          let p := { cfg.path with device := String.mk [d] }
          let p := if runeAt arr (cfg.curIdx + 2) = some '\\' then
              { p with absolute := true } else p
          some ⟨cfg.curIdx + 2, statePathComponent, cfg.curSubState, cfg.curStack, p⟩
        else
          some ⟨cfg.curIdx, statePathComponent, cfg.curSubState, cfg.curStack, cfg.path⟩
      | none =>
        some ⟨cfg.curIdx, statePathComponent, cfg.curSubState, cfg.curStack, cfg.path⟩
    | statePathComponent =>
      if c = '\\' then
        if cfg.curStack.length > 0 then
          some ⟨cfg.curIdx + 1, statePathComponent, cfg.curSubState, [],
            { cfg.path with dirs := cfg.path.dirs ++ [String.mk cfg.curStack] }⟩
        else
          some ⟨cfg.curIdx + 1, statePathComponent, cfg.curSubState, cfg.curStack, cfg.path⟩
      else
        some ⟨cfg.curIdx + 1, statePathComponent, cfg.curSubState, cfg.curStack ++ [c],
          noteErr cfg.path c⟩
    | stateUNC =>
      if c = '\\' then
        if cfg.curStack.length > 0 then
          let node := String.mk cfg.curStack
          match cfg.curSubState with
          | substateUnicode =>
            if node = "UNC" then
              some ⟨cfg.curIdx + 1, stateUNC, substateUnicodeUNC, [], cfg.path⟩
            else
              -- rewind: curIdx -= len(node) (byte length), resume from stateDrive
              some ⟨cfg.curIdx - (goLen cfg.curStack : Int), stateDrive, cfg.curSubState, [],
                cfg.path⟩
          | substateStart =>
            if node = "?" then
              some ⟨cfg.curIdx + 1, stateUNC, substateUnicode, [],
                { cfg.path with unicode := true }⟩
            else
              some ⟨cfg.curIdx + 1, statePathComponent, cfg.curSubState, [],
                { cfg.path with node := node, unc := true }⟩
          | substateUnicodeUNC =>
            some ⟨cfg.curIdx + 1, statePathComponent, cfg.curSubState, [],
              { cfg.path with node := node, unc := true }⟩
        else
          some ⟨cfg.curIdx + 1, stateUNC, cfg.curSubState, cfg.curStack, cfg.path⟩
      else
        some ⟨cfg.curIdx + 1, stateUNC, cfg.curSubState, cfg.curStack ++ [c],
          noteErr cfg.path c⟩

/-- Outcome of running the loop: normal exit with the final locals, a Go
panic, or exhaustion of the (sufficient, see the termination theorem) fuel. -/
inductive Res where
  | ok (cfg : Config)
  | panic
  | fuelOut
  deriving DecidableEq, Repr

/-- The loop `for curIdx < runeArrayLen { … }` of `newPathImpl`, iterating
`step` while the index is in range (written with a bare `Nat.rec` so that
concrete runs reduce efficiently). -/
def runLoop (arr : List Char) (fuel : Nat) : Config → Res :=
  Nat.rec (motive := fun _ => Config → Res)
    (fun cfg => if cfg.curIdx < (arr.length : Int) then Res.fuelOut else Res.ok cfg)
    (fun _ ih cfg =>
      if cfg.curIdx < (arr.length : Int) then
        match step arr cfg with
        | none => Res.panic
        | some cfg2 => ih cfg2
      else Res.ok cfg)
    fuel

/-- After the loop: a leftover `curStack` is validated rune by rune and
becomes the file name. -/
def finishName (stack : List Char) (p : PathImpl) : PathImpl :=
  if stack.length > 0 then
    let q := stack.foldl noteErr p
    { q with name := String.mk stack }
  else p

/-- The final length validation of `newPathImpl`, against Go `len(path)`
(the byte count of the original input). -/
def checkLength (path : String) (p : PathImpl) : PathImpl :=
  if p.unicode = true ∧ goLen path.data > 32767 then
    { p with errs := p.errs ++ [errTooLongUnicode] }
  else if p.unicode = false ∧ goLen path.data > 255 then
    { p with errs := p.errs ++ [errTooLong] }
  else p

/-- Fuel that always suffices for `runLoop` (see the termination theorem). -/
def enoughFuel (arr : List Char) : Nat := 5 * arr.length + 8

/-- Mirror of Go `newPathImpl`: `none` models a Go panic (which the real
function exhibits on some multi-byte inputs, see claim C1). -/
def newPathImpl (path : String) : Option PathImpl :=
  match buildRuneArray path.data with
  | none => none
  | some runeArray =>
    match runLoop runeArray (enoughFuel runeArray)
        ⟨0, stateStart, substateStart, [], emptyPath⟩ with
    | Res.ok cfg => some (checkLength path (finishName cfg.curStack cfg.path))
    | _ => none

/-- Mirror of Go `Path`, the public entry point. -/
def Path (path : String) : Option PathImpl := newPathImpl path

/-- Mirror of the Go method `(*PathImpl).ToString` (the canonical serializer). -/
def PathImpl.ToString (p : PathImpl) : String :=
  let unc := ""
  let hasComponents := false
  let unc := if p.device.length > 0 then unc ++ p.device ++ ":" else unc
  let unc := if p.node.length > 0 then unc ++ "\\\\" ++ p.node else unc
  let st := p.dirs.foldl (fun (a : String × Bool) d => (a.1 ++ "\\" ++ d, true))
    (unc, hasComponents)
  let st := if p.name.length > 0 then (st.1 ++ "\\" ++ p.name, true) else st
  if st.2 = false then st.1 ++ "\\" else st.1

/-- Mirror of the Go method `(*PathImpl).MakeDirectory` (value-level: the Go
method mutates the receiver in place and returns the same pointer). -/
def PathImpl.MakeDirectory (p : PathImpl) : PathImpl :=
  if p.name.length > 0 then { p with dirs := p.dirs ++ [p.name], name := "" }
  else p

/-! ### Basic lemmas about the embedding -/

theorem utf8Size_pos (c : Char) : 1 ≤ utf8Size c := by
  unfold utf8Size; split_ifs <;> omega

theorem utf8Size_le_four (c : Char) : utf8Size c ≤ 4 := by
  unfold utf8Size; split_ifs <;> omega

theorem noteErr_eq (p : PathImpl) (c : Char) :
    noteErr p c = { p with errs := p.errs ++ (isPathNameLetter c).toList } := by
  unfold noteErr
  cases h : isPathNameLetter c <;> simp [h]

theorem foldl_noteErr (l : List Char) (p : PathImpl) :
    l.foldl noteErr p = { p with errs := p.errs ++ l.filterMap isPathNameLetter } := by
  induction l generalizing p with
  | nil => simp
  | cons c l ih =>
    rw [List.foldl_cons, ih, noteErr_eq]
    cases h : isPathNameLetter c <;> simp [h, List.filterMap_cons]

theorem isPathNameLetter_cases (c : Char) :
    isPathNameLetter c = none ∨ isPathNameLetter c = some errReserved ∨
      isPathNameLetter c = some errNull ∨ isPathNameLetter c = some errControl := by
  unfold isPathNameLetter
  split_ifs <;> simp

theorem runeAt_of_drop {arr : List Char} {i : Int} {c : Char} {l : List Char}
    (hi : 0 ≤ i) (h : arr.drop i.toNat = c :: l) : runeAt arr i = some c := by
  unfold runeAt
  rw [if_pos hi, h]
  rfl

theorem runeAt_some {arr : List Char} {i : Int} {c : Char}
    (h : runeAt arr i = some c) : 0 ≤ i ∧ i < (arr.length : Int) := by
  unfold runeAt at h
  split_ifs at h with hi
  · refine ⟨hi, ?_⟩
    rcases hd : arr.drop i.toNat with _ | ⟨d, l⟩
    · rw [hd] at h; simp at h
    · have : i.toNat < arr.length := by
        by_contra hc
        rw [List.drop_eq_nil_of_le (by omega)] at hd
        simp at hd
      omega

theorem drop_toNat_succ {arr : List Char} {i : Int} (hi : 0 ≤ i) :
    arr.drop (i + 1).toNat = (arr.drop i.toNat).tail := by
  have : (i + 1).toNat = i.toNat + 1 := by omega
  rw [this, ← List.tail_drop]

/-- The two defining equations of `runLoop`. -/
theorem runLoop_zero_def (arr : List Char) (cfg : Config) :
    runLoop arr 0 cfg =
      if cfg.curIdx < (arr.length : Int) then Res.fuelOut else Res.ok cfg := rfl

theorem runLoop_succ_def (arr : List Char) (f : Nat) (cfg : Config) :
    runLoop arr (f + 1) cfg =
      if cfg.curIdx < (arr.length : Int) then
        match step arr cfg with
        | none => Res.panic
        | some cfg2 => runLoop arr f cfg2
      else Res.ok cfg := rfl

/-- Unfolding the loop when the index is out of range (loop exit). -/
theorem runLoop_exit {arr : List Char} {cfg : Config} (f : Nat)
    (h : ¬ cfg.curIdx < (arr.length : Int)) : runLoop arr f cfg = Res.ok cfg := by
  cases f with
  | zero => rw [runLoop_zero_def, if_neg h]
  | succ f => rw [runLoop_succ_def, if_neg h]

/-- Unfolding one iteration of the loop. -/
theorem runLoop_step {arr : List Char} {cfg cfg' : Config} (f : Nat)
    (h : cfg.curIdx < (arr.length : Int)) (hs : step arr cfg = some cfg') :
    runLoop arr (f + 1) cfg = runLoop arr f cfg' := by
  rw [runLoop_succ_def, if_pos h, hs]

theorem runLoop_panic {arr : List Char} {cfg : Config} (f : Nat)
    (h : cfg.curIdx < (arr.length : Int)) (hs : step arr cfg = none) :
    runLoop arr (f + 1) cfg = Res.panic := by
  rw [runLoop_succ_def, if_pos h, hs]

theorem runLoop_zero {arr : List Char} {cfg : Config}
    (h : cfg.curIdx < (arr.length : Int)) : runLoop arr 0 cfg = Res.fuelOut := by
  rw [runLoop_zero_def, if_pos h]

/-! ### Case analyses of the step function, one per state -/

theorem step_start_cases {arr : List Char} {cfg cfg' : Config}
    (hst : cfg.curState = stateStart) (h : step arr cfg = some cfg') :
    ∃ c, runeAt arr cfg.curIdx = some c ∧
      ((c = '\\' ∧ runeAt arr (cfg.curIdx + 1) = some '\\' ∧
          cfg' = ⟨cfg.curIdx + 2, stateUNC, cfg.curSubState, cfg.curStack, cfg.path⟩) ∨
        (c = '\\' ∧ ¬ runeAt arr (cfg.curIdx + 1) = some '\\' ∧
          cfg' = ⟨cfg.curIdx + 1, statePathComponent, cfg.curSubState, cfg.curStack,
            { cfg.path with absolute := true }⟩) ∨
        (¬ c = '\\' ∧
          cfg' = ⟨cfg.curIdx, stateDrive, cfg.curSubState, cfg.curStack, cfg.path⟩)) := by
  unfold step at h
  cases hr : runeAt arr cfg.curIdx with
  | none => rw [hr] at h; exact absurd h (by simp)
  | some c =>
    rw [hr, hst] at h
    simp only at h
    refine ⟨c, rfl, ?_⟩
    split_ifs at h with h1 h2
    · exact Or.inl ⟨h1.1, h1.2, (Option.some.inj h).symm⟩
    · refine Or.inr (Or.inl ⟨h2, ?_, (Option.some.inj h).symm⟩)
      intro hnext
      exact h1 ⟨h2, hnext⟩
    · refine Or.inr (Or.inr ⟨?_, (Option.some.inj h).symm⟩)
      intro hc
      exact h2 hc

theorem step_drive_cases {arr : List Char} {cfg cfg' : Config}
    (hst : cfg.curState = stateDrive) (h : step arr cfg = some cfg') :
    ∃ c, runeAt arr cfg.curIdx = some c ∧
      ((∃ d, isDriveLetter c = some d ∧ runeAt arr (cfg.curIdx + 1) = some ':' ∧
          cfg' = ⟨cfg.curIdx + 2, statePathComponent, cfg.curSubState, cfg.curStack,
            { cfg.path with
              device := String.mk [d],
              absolute := if runeAt arr (cfg.curIdx + 2) = some '\\' then true
                else cfg.path.absolute }⟩) ∨
        (cfg' = ⟨cfg.curIdx, statePathComponent, cfg.curSubState, cfg.curStack, cfg.path⟩)) := by
  unfold step at h
  cases hr : runeAt arr cfg.curIdx with
  | none => rw [hr] at h; exact absurd h (by simp)
  | some c =>
    rw [hr, hst] at h
    simp only at h
    refine ⟨c, rfl, ?_⟩
    cases hd : isDriveLetter c with
    | none =>
      rw [hd] at h
      simp only at h
      exact Or.inr (Option.some.inj h).symm
    | some d =>
      rw [hd] at h
      simp only at h
      by_cases h1 : runeAt arr (cfg.curIdx + 1) = some ':'
      · rw [if_pos h1] at h
        refine Or.inl ⟨d, rfl, h1, ?_⟩
        rw [← Option.some.inj h]
        split_ifs <;> rfl
      · rw [if_neg h1] at h
        exact Or.inr (Option.some.inj h).symm

theorem step_pc_cases {arr : List Char} {cfg cfg' : Config}
    (hst : cfg.curState = statePathComponent) (h : step arr cfg = some cfg') :
    ∃ c, runeAt arr cfg.curIdx = some c ∧
      ((c = '\\' ∧ ¬ cfg.curStack = [] ∧
          cfg' = ⟨cfg.curIdx + 1, statePathComponent, cfg.curSubState, [],
            { cfg.path with dirs := cfg.path.dirs ++ [String.mk cfg.curStack] }⟩) ∨
        (c = '\\' ∧ cfg.curStack = [] ∧
          cfg' = ⟨cfg.curIdx + 1, statePathComponent, cfg.curSubState, cfg.curStack, cfg.path⟩) ∨
        (¬ c = '\\' ∧
          cfg' = ⟨cfg.curIdx + 1, statePathComponent, cfg.curSubState, cfg.curStack ++ [c],
            noteErr cfg.path c⟩)) := by
  unfold step at h
  cases hr : runeAt arr cfg.curIdx with
  | none => rw [hr] at h; exact absurd h (by simp)
  | some c =>
    rw [hr, hst] at h
    simp only at h
    refine ⟨c, rfl, ?_⟩
    split_ifs at h with h1 h2
    · refine Or.inl ⟨h1, ?_, (Option.some.inj h).symm⟩
      intro he
      rw [he] at h2
      simp at h2
    · refine Or.inr (Or.inl ⟨h1, ?_, (Option.some.inj h).symm⟩)
      rcases hs : cfg.curStack with _ | ⟨a, l⟩
      · rfl
      · rw [hs] at h2; simp at h2
    · exact Or.inr (Or.inr ⟨h1, (Option.some.inj h).symm⟩)

theorem step_unc_cases {arr : List Char} {cfg cfg' : Config}
    (hst : cfg.curState = stateUNC) (h : step arr cfg = some cfg') :
    ∃ c, runeAt arr cfg.curIdx = some c ∧
      ((c = '\\' ∧ cfg.curStack = [] ∧
          cfg' = ⟨cfg.curIdx + 1, stateUNC, cfg.curSubState, cfg.curStack, cfg.path⟩) ∨
        (c = '\\' ∧ ¬ cfg.curStack = [] ∧ cfg.curSubState = substateStart ∧
          String.mk cfg.curStack = "?" ∧
          cfg' = ⟨cfg.curIdx + 1, stateUNC, substateUnicode, [],
            { cfg.path with unicode := true }⟩) ∨
        (c = '\\' ∧ ¬ cfg.curStack = [] ∧ cfg.curSubState = substateStart ∧
          ¬ String.mk cfg.curStack = "?" ∧
          cfg' = ⟨cfg.curIdx + 1, statePathComponent, cfg.curSubState, [],
            { cfg.path with node := String.mk cfg.curStack, unc := true }⟩) ∨
        (c = '\\' ∧ ¬ cfg.curStack = [] ∧ cfg.curSubState = substateUnicode ∧
          String.mk cfg.curStack = "UNC" ∧
          cfg' = ⟨cfg.curIdx + 1, stateUNC, substateUnicodeUNC, [], cfg.path⟩) ∨
        (c = '\\' ∧ ¬ cfg.curStack = [] ∧ cfg.curSubState = substateUnicode ∧
          ¬ String.mk cfg.curStack = "UNC" ∧
          cfg' = ⟨cfg.curIdx - (goLen cfg.curStack : Int), stateDrive, cfg.curSubState, [],
            cfg.path⟩) ∨
        (c = '\\' ∧ ¬ cfg.curStack = [] ∧ cfg.curSubState = substateUnicodeUNC ∧
          cfg' = ⟨cfg.curIdx + 1, statePathComponent, cfg.curSubState, [],
            { cfg.path with node := String.mk cfg.curStack, unc := true }⟩) ∨
        (¬ c = '\\' ∧
          cfg' = ⟨cfg.curIdx + 1, stateUNC, cfg.curSubState, cfg.curStack ++ [c],
            noteErr cfg.path c⟩)) := by
  unfold step at h
  cases hr : runeAt arr cfg.curIdx with
  | none => rw [hr] at h; exact absurd h (by simp)
  | some c =>
    rw [hr, hst] at h
    simp only at h
    refine ⟨c, rfl, ?_⟩
    by_cases h1 : c = '\\'
    · rw [if_pos h1] at h
      by_cases h2 : cfg.curStack.length > 0
      · rw [if_pos h2] at h
        have hne : ¬ cfg.curStack = [] := by
          intro he; rw [he] at h2; simp at h2
        cases hsub : cfg.curSubState with
        | substateUnicode =>
          rw [hsub] at h
          simp only at h
          split_ifs at h with h3
          · exact Or.inr (Or.inr (Or.inr (Or.inl ⟨h1, hne, rfl, h3, (Option.some.inj h).symm⟩)))
          · refine Or.inr (Or.inr (Or.inr (Or.inr (Or.inl ⟨h1, hne, rfl, h3, ?_⟩))))
            exact (Option.some.inj h).symm
        | substateStart =>
          rw [hsub] at h
          simp only at h
          split_ifs at h with h3
          · exact Or.inr (Or.inl ⟨h1, hne, rfl, h3, (Option.some.inj h).symm⟩)
          · refine Or.inr (Or.inr (Or.inl ⟨h1, hne, rfl, h3, ?_⟩))
            exact (Option.some.inj h).symm
        | substateUnicodeUNC =>
          rw [hsub] at h
          simp only at h
          refine Or.inr (Or.inr (Or.inr (Or.inr (Or.inr (Or.inl ⟨h1, hne, rfl, ?_⟩)))))
          exact (Option.some.inj h).symm
      · rw [if_neg h2] at h
        exact Or.inl ⟨h1, by simpa using h2, (Option.some.inj h).symm⟩
    · rw [if_neg h1] at h
      exact Or.inr (Or.inr (Or.inr (Or.inr (Or.inr (Or.inr ⟨h1, (Option.some.inj h).symm⟩)))))

/-! ### Termination of the parsing loop -/

theorem goLen_nil : goLen [] = 0 := rfl

theorem goLen_append (a b : List Char) : goLen (a ++ b) = goLen a + goLen b := by
  unfold goLen
  rw [List.map_append, List.sum_append]

theorem goLen_cons (c : Char) (l : List Char) : goLen (c :: l) = utf8Size c + goLen l := by
  unfold goLen
  rw [List.map_cons, List.sum_cons]

/-- Fuel that suffices to drive the loop from a given configuration to its
exit (or to a panic): the single bounded rewind is paid for by the
`goLen`-of-the-pending-buffer summand. -/
def fuelBound (arr : List Char) (cfg : Config) : Nat :=
  match cfg.curState with
  | stateStart => 5 * ((arr.length : Int) - cfg.curIdx).toNat + goLen cfg.curStack + 2
  | stateUNC => 5 * ((arr.length : Int) - cfg.curIdx).toNat + goLen cfg.curStack + 2
  | stateDrive => ((arr.length : Int) - cfg.curIdx).toNat + 1
  | statePathComponent => ((arr.length : Int) - cfg.curIdx).toNat

theorem runLoop_not_fuelOut {arr : List Char} :
    ∀ (f : Nat) (cfg : Config), fuelBound arr cfg ≤ f → runLoop arr f cfg ≠ Res.fuelOut := by
  intro f
  induction f with
  | zero =>
    rintro ⟨i, st, sub, stack, p⟩ hb
    by_cases hi : i < (arr.length : Int)
    · exfalso
      cases st <;> simp only [fuelBound] at hb <;> omega
    · rw [runLoop_exit 0 hi]
      simp
  | succ f ih =>
    intro cfg hb
    by_cases hi : cfg.curIdx < (arr.length : Int)
    · cases hs : step arr cfg with
      | none =>
        rw [runLoop_panic f hi hs]
        simp
      | some cfg2 =>
        rw [runLoop_step f hi hs]
        apply ih
        rcases hst : cfg.curState with _ | _ | _ | _
        · rcases step_start_cases hst hs with ⟨c, hr, hcase⟩
          obtain ⟨h0, hin⟩ := runeAt_some hr
          unfold fuelBound at hb
          rw [hst] at hb
          simp only at hb
          rcases hcase with ⟨-, -, he⟩ | ⟨-, -, he⟩ | ⟨-, he⟩ <;>
            rw [he] <;> unfold fuelBound <;> simp only [goLen_nil] <;> omega
        · rcases step_unc_cases hst hs with ⟨c, hr, hcase⟩
          obtain ⟨h0, hin⟩ := runeAt_some hr
          unfold fuelBound at hb
          rw [hst] at hb
          simp only at hb
          have h4 := utf8Size_le_four c
          rcases hcase with ⟨-, -, he⟩ | ⟨-, -, -, -, he⟩ | ⟨-, -, -, -, he⟩ |
              ⟨-, -, -, -, he⟩ | ⟨-, -, -, -, he⟩ | ⟨-, -, -, he⟩ | ⟨-, he⟩ <;>
            rw [he] <;> unfold fuelBound <;>
            simp only [goLen_nil, goLen_append, goLen_cons] <;> omega
        · rcases step_drive_cases hst hs with ⟨c, hr, hcase⟩
          obtain ⟨h0, hin⟩ := runeAt_some hr
          unfold fuelBound at hb
          rw [hst] at hb
          simp only at hb
          rcases hcase with ⟨d, -, -, he⟩ | he <;>
            rw [he] <;> unfold fuelBound <;> simp only <;> omega
        · rcases step_pc_cases hst hs with ⟨c, hr, hcase⟩
          obtain ⟨h0, hin⟩ := runeAt_some hr
          unfold fuelBound at hb
          rw [hst] at hb
          simp only at hb
          rcases hcase with ⟨-, -, he⟩ | ⟨-, -, he⟩ | ⟨-, he⟩ <;>
            rw [he] <;> unfold fuelBound <;> simp only <;> omega
    · rw [runLoop_exit (f + 1) hi]
      simp

theorem runLoop_add_fuel {arr : List Char} :
    ∀ (f g : Nat) (cfg : Config), runLoop arr f cfg ≠ Res.fuelOut →
      runLoop arr (f + g) cfg = runLoop arr f cfg := by
  intro f
  induction f with
  | zero =>
    intro g cfg h
    by_cases hi : cfg.curIdx < (arr.length : Int)
    · exact absurd (runLoop_zero hi) h
    · rw [Nat.zero_add, runLoop_exit g hi, runLoop_exit 0 hi]
  | succ f ih =>
    intro g cfg h
    have e : f + 1 + g = (f + g) + 1 := by omega
    by_cases hi : cfg.curIdx < (arr.length : Int)
    · cases hs : step arr cfg with
      | none =>
        rw [e, runLoop_panic (f + g) hi hs, runLoop_panic f hi hs]
      | some cfg2 =>
        rw [runLoop_step f hi hs] at h
        rw [e, runLoop_step (f + g) hi hs, runLoop_step f hi hs]
        exact ih g cfg2 h
    · rw [runLoop_exit (f + 1 + g) hi, runLoop_exit (f + 1) hi]

theorem initConfig_fuelBound (arr : List Char) :
    fuelBound arr ⟨0, stateStart, substateStart, [], emptyPath⟩ ≤ enoughFuel arr := by
  unfold fuelBound enoughFuel
  simp only [goLen_nil]
  omega

/-! ### Generic invariants of the loop -/

theorem runLoop_inv {arr : List Char} {P : Config → Prop}
    (hstep : ∀ cfg cfg', P cfg → step arr cfg = some cfg' → P cfg') :
    ∀ (f : Nat) (cfg cfg' : Config), P cfg → runLoop arr f cfg = Res.ok cfg' → P cfg' := by
  intro f
  induction f with
  | zero =>
    intro cfg cfg' hp hrun
    by_cases hi : cfg.curIdx < (arr.length : Int)
    · rw [runLoop_zero hi] at hrun
      exact absurd hrun (by simp)
    · rw [runLoop_exit 0 hi] at hrun
      obtain rfl : cfg = cfg' := by injection hrun
      exact hp
  | succ f ih =>
    intro cfg cfg' hp hrun
    by_cases hi : cfg.curIdx < (arr.length : Int)
    · cases hs : step arr cfg with
      | none =>
        rw [runLoop_panic f hi hs] at hrun
        exact absurd hrun (by simp)
      | some cfg2 =>
        rw [runLoop_step f hi hs] at hrun
        exact ih cfg2 cfg' (hstep cfg cfg2 hp hs) hrun
    · rw [runLoop_exit (f + 1) hi] at hrun
      obtain rfl : cfg = cfg' := by injection hrun
      exact hp

/-- A step only ever appends to the error list. -/
theorem step_errs {arr : List Char} {cfg cfg' : Config} (h : step arr cfg = some cfg') :
    ∃ l, cfg'.path.errs = cfg.path.errs ++ l := by
  rcases hst : cfg.curState with _ | _ | _ | _
  · rcases step_start_cases hst h with ⟨c, -, hcase⟩
    rcases hcase with ⟨-, -, he⟩ | ⟨-, -, he⟩ | ⟨-, he⟩ <;>
      exact ⟨[], by rw [he]; simp⟩
  · rcases step_unc_cases hst h with ⟨c, -, hcase⟩
    rcases hcase with ⟨-, -, he⟩ | ⟨-, -, -, -, he⟩ | ⟨-, -, -, -, he⟩ |
        ⟨-, -, -, -, he⟩ | ⟨-, -, -, -, he⟩ | ⟨-, -, -, he⟩ | ⟨-, he⟩ <;>
      (rw [he]; simp [noteErr_eq])
  · rcases step_drive_cases hst h with ⟨c, -, hcase⟩
    rcases hcase with ⟨d, -, -, he⟩ | he <;>
      exact ⟨[], by rw [he]; simp⟩
  · rcases step_pc_cases hst h with ⟨c, -, hcase⟩
    rcases hcase with ⟨-, -, he⟩ | ⟨-, -, he⟩ | ⟨-, he⟩ <;>
      (rw [he]; simp [noteErr_eq])

/-- Over a whole (successfully exiting) run, errors are only appended. -/
theorem runLoop_errs {arr : List Char} {f : Nat} {cfg cfg' : Config}
    (hrun : runLoop arr f cfg = Res.ok cfg') :
    ∃ l, cfg'.path.errs = cfg.path.errs ++ l := by
  have h := runLoop_inv
    (P := fun c => ∃ l, c.path.errs = cfg.path.errs ++ l)
    (fun c c' ⟨l1, h1⟩ hs => by
      obtain ⟨l2, h2⟩ := step_errs hs
      exact ⟨l1 ++ l2, by rw [h2, h1, List.append_assoc]⟩)
    f cfg cfg' ⟨[], by simp⟩ hrun
  exact h

/-- C6: the state-machine loop of `newPathImpl` terminates on every input:
with the fuel `newPathImpl` supplies the loop never runs out, and adding
more fuel does not change the result; moreover no single step moves the
cursor back by more than the byte length of the pending component buffer
(the rewind bound), and no step ever enters the UNC-prefix state except
from the start state, so after the one possible rewind into the drive
state the machine cannot cycle back. -/
theorem c6_loop_termination (arr : List Char) (g : Nat) :
    runLoop arr (enoughFuel arr + g) ⟨0, stateStart, substateStart, [], emptyPath⟩ =
      runLoop arr (enoughFuel arr) ⟨0, stateStart, substateStart, [], emptyPath⟩ ∧
    runLoop arr (enoughFuel arr) ⟨0, stateStart, substateStart, [], emptyPath⟩ ≠ Res.fuelOut ∧
    (∀ cfg cfg' : Config, step arr cfg = some cfg' →
      cfg.curIdx - (goLen cfg.curStack : Int) ≤ cfg'.curIdx) ∧
    (∀ cfg cfg' : Config, step arr cfg = some cfg' → cfg'.curState = stateUNC →
      cfg.curState = stateStart ∨ cfg.curState = stateUNC) := by
  have hne := runLoop_not_fuelOut (enoughFuel arr)
    ⟨0, stateStart, substateStart, [], emptyPath⟩ (initConfig_fuelBound arr)
  refine ⟨runLoop_add_fuel (enoughFuel arr) g _ hne, hne, ?_, ?_⟩
  · intro cfg cfg' hs
    have hL : (0 : Int) ≤ (goLen cfg.curStack : Int) := by positivity
    rcases hst : cfg.curState with _ | _ | _ | _
    · rcases step_start_cases hst hs with ⟨c, -, hcase⟩
      rcases hcase with ⟨-, -, he⟩ | ⟨-, -, he⟩ | ⟨-, he⟩ <;> rw [he] <;> simp <;> omega
    · rcases step_unc_cases hst hs with ⟨c, -, hcase⟩
      rcases hcase with ⟨-, -, he⟩ | ⟨-, -, -, -, he⟩ | ⟨-, -, -, -, he⟩ |
          ⟨-, -, -, -, he⟩ | ⟨-, -, -, -, he⟩ | ⟨-, -, -, he⟩ | ⟨-, he⟩ <;>
        rw [he] <;> simp <;> omega
    · rcases step_drive_cases hst hs with ⟨c, -, hcase⟩
      rcases hcase with ⟨d, -, -, he⟩ | he <;> rw [he] <;> simp <;> omega
    · rcases step_pc_cases hst hs with ⟨c, -, hcase⟩
      rcases hcase with ⟨-, -, he⟩ | ⟨-, -, he⟩ | ⟨-, he⟩ <;> rw [he] <;> simp <;> omega
  · intro cfg cfg' hs hunc
    rcases hst : cfg.curState with _ | _ | _ | _
    · exact Or.inl rfl
    · exact Or.inr rfl
    · exfalso
      rcases step_drive_cases hst hs with ⟨c, -, hcase⟩
      rcases hcase with ⟨d, -, -, he⟩ | he <;> rw [he] at hunc <;> exact absurd hunc (by simp)
    · exfalso
      rcases step_pc_cases hst hs with ⟨c, -, hcase⟩
      rcases hcase with ⟨-, -, he⟩ | ⟨-, -, he⟩ | ⟨-, he⟩ <;> rw [he] at hunc <;>
        exact absurd hunc (by simp)

/-- Witness for C6: the termination facts evaluated at concrete inputs,
including a concrete rewinding step. -/
theorem c6_loop_termination_witness :
    runLoop ['\\', '\\'] (enoughFuel ['\\', '\\'] + 3)
        ⟨0, stateStart, substateStart, [], emptyPath⟩ =
      runLoop ['\\', '\\'] (enoughFuel ['\\', '\\'])
        ⟨0, stateStart, substateStart, [], emptyPath⟩ ∧
    ((2 : Int) - (goLen ['a', 'b'] : Int) ≤
      (⟨0, stateDrive, substateUnicode, [], emptyPath⟩ : Config).curIdx) ∧
    (stateStart = stateStart ∨ stateStart = stateUNC) := by
  refine ⟨(c6_loop_termination ['\\', '\\'] 3).1, ?_, ?_⟩
  · have h := (c6_loop_termination ['a', 'b', '\\', 'c'] 0).2.2.1
      ⟨2, stateUNC, substateUnicode, ['a', 'b'], emptyPath⟩
      ⟨0, stateDrive, substateUnicode, [], emptyPath⟩ (by decide)
    simpa using h
  · exact (c6_loop_termination ['\\', '\\'] 0).2.2.2
      ⟨0, stateStart, substateStart, [], emptyPath⟩
      ⟨2, stateUNC, substateStart, [], emptyPath⟩ (by decide) rfl

/-! ### The rune-array construction: success and its characterization -/

/-- All scalars encode to one byte. -/
def sbAll (cs : List Char) : Prop := ∀ c ∈ cs, utf8Size c = 1

/-- All scalars except possibly the last encode to one byte; exactly the
inputs on which the rune-array construction of `newPathImpl` does not
panic. -/
def sbButLast (cs : List Char) : Prop := ∀ c ∈ cs.dropLast, utf8Size c = 1

instance sbAll.instDecidable (cs : List Char) : Decidable (sbAll cs) := by
  unfold sbAll
  exact List.decidableBAll _ cs

instance sbButLast.instDecidable (cs : List Char) : Decidable (sbButLast cs) := by
  unfold sbButLast
  exact List.decidableBAll _ cs.dropLast

theorem fill_some {cs : List Char} :
    ∀ {off : Nat} {arr l : List Char}, fillRuneArray cs off arr = some l →
      cs = [] ∨ off + goLen cs.dropLast < arr.length := by
  induction cs with
  | nil => intro off arr l _; exact Or.inl rfl
  | cons c rest ih =>
    intro off arr l h
    unfold fillRuneArray at h
    split_ifs at h with hoff
    right
    rcases hr : rest with _ | ⟨a, t⟩
    · subst hr
      simpa [List.dropLast_single, goLen_nil] using hoff
    · subst hr
      rcases ih h with hnil | hlt
      · simp at hnil
      · rw [List.length_set] at hlt
        rw [List.dropLast_cons₂, goLen_cons]
        omega

theorem goLen_ge_length (cs : List Char) : cs.length ≤ goLen cs := by
  induction cs with
  | nil => simp [goLen_nil]
  | cons c rest ih =>
    rw [goLen_cons]
    have := utf8Size_pos c
    simp only [List.length_cons]
    omega

theorem sbAll_of_goLen_le {cs : List Char} (h : goLen cs ≤ cs.length) : sbAll cs := by
  induction cs with
  | nil => intro c hc; simp at hc
  | cons c rest ih =>
    rw [goLen_cons] at h
    simp only [List.length_cons] at h
    have h1 := utf8Size_pos c
    have h2 := goLen_ge_length rest
    intro a ha
    rcases List.mem_cons.mp ha with rfl | ha
    · omega
    · exact ih (by omega) a ha

theorem fill_writes {cs : List Char} :
    ∀ {off : Nat} {arr : List Char}, arr.length = off + cs.length → sbButLast cs →
      fillRuneArray cs off arr = some (arr.take off ++ cs) := by
  induction cs with
  | nil =>
    intro off arr hlen _
    unfold fillRuneArray
    rw [List.append_nil, List.take_of_length_le (by simp only [List.length_nil] at hlen; omega)]
  | cons c rest ih =>
    intro off arr hlen hsb
    have hofflt : off < arr.length := by simp only [List.length_cons] at hlen; omega
    unfold fillRuneArray
    rw [if_pos hofflt]
    have hset : arr.set off c = arr.take off ++ c :: arr.drop (off + 1) := by
      rw [List.set_eq_take_append_cons_drop, if_pos hofflt]
    rcases hr : rest with _ | ⟨a, t⟩
    · subst hr
      unfold fillRuneArray
      rw [hset]
      congr 1
      simp only [List.length_cons, List.length_nil] at hlen
      rw [List.drop_eq_nil_of_le (by omega)]
    · subst hr
      have hsz : utf8Size c = 1 := by
        apply hsb
        rw [List.dropLast_cons₂]
        exact List.mem_cons_self c _
      have hsb2 : sbButLast (a :: t) := by
        intro x hx
        apply hsb
        rw [List.dropLast_cons₂]
        exact List.mem_cons_of_mem c hx
      have harr2 : (arr.set off c).length = (off + 1) + (a :: t).length := by
        simp only [List.length_set, List.length_cons] at hlen ⊢
        omega
      rw [hsz, ih harr2 hsb2]
      congr 1
      rw [hset]
      rw [List.take_append_eq_append_take, List.length_take]
      have hmin : min off arr.length = off := by omega
      rw [List.take_take]
      simp only [hmin]
      have h1 : min (off + 1) off = off := by omega
      rw [h1]
      have h2 : off + 1 - off = 1 := by omega
      rw [h2]
      simp

theorem buildRuneArray_eq {cs l : List Char} (h : buildRuneArray cs = some l) :
    l = cs ∧ sbButLast cs := by
  by_cases hcs : cs = []
  · subst hcs
    constructor
    · unfold buildRuneArray fillRuneArray at h
      simpa using h.symm
    · intro c hc
      simp at hc
  · unfold buildRuneArray at h
    rcases fill_some h with hnil | hlt
    · exact absurd hnil hcs
    · rw [List.length_replicate] at hlt
      have hpos : 0 < cs.length := List.length_pos.mpr hcs
      have hdl : cs.dropLast.length = cs.length - 1 := by simp
      have hle : goLen cs.dropLast ≤ cs.dropLast.length := by omega
      have hsb : sbButLast cs := sbAll_of_goLen_le hle
      have hw := @fill_writes cs 0 (List.replicate cs.length (Char.ofNat 0)) (by simp) hsb
      rw [hw] at h
      have h2 := Option.some.inj h
      simp only [List.take_zero, List.nil_append] at h2
      exact ⟨h2.symm, hsb⟩

theorem buildRuneArray_ok {cs : List Char} (h : sbButLast cs) :
    buildRuneArray cs = some cs := by
  unfold buildRuneArray
  rw [fill_writes (by simp) h]
  simp

/-! ### Post-loop processing, characterized -/

theorem string_ne_empty_iff {s : String} : s ≠ "" ↔ 0 < s.length := by
  constructor
  · intro h
    have : s.data ≠ [] := fun hd => h (by
      apply String.ext
      rw [hd])
    have := List.length_pos.mpr this
    exact this
  · intro h he
    subst he
    simp at h

theorem finishName_eq (stack : List Char) (q : PathImpl) :
    finishName stack q = if stack.length > 0
      then { q with name := String.mk stack, errs := q.errs ++ stack.filterMap isPathNameLetter }
      else q := by
  unfold finishName
  split_ifs with h
  · rw [foldl_noteErr]
  · rfl

theorem checkLength_exists (s : String) (q : PathImpl) :
    ∃ l, checkLength s q = { q with errs := q.errs ++ l } := by
  unfold checkLength
  split_ifs with h1 h2
  · exact ⟨[errTooLongUnicode], rfl⟩
  · exact ⟨[errTooLong], rfl⟩
  · exact ⟨[], by simp⟩

/-- Decomposition of a successful parse into its three stages. -/
theorem newPathImpl_ok {s : String} {p : PathImpl} (h : newPathImpl s = some p) :
    ∃ cfg : Config, buildRuneArray s.data = some s.data ∧ sbButLast s.data ∧
      runLoop s.data (enoughFuel s.data) ⟨0, stateStart, substateStart, [], emptyPath⟩ =
        Res.ok cfg ∧
      p = checkLength s (finishName cfg.curStack cfg.path) := by
  unfold newPathImpl at h
  cases hb : buildRuneArray s.data with
  | none => rw [hb] at h; exact absurd h (by simp)
  | some arr =>
    obtain ⟨rfl, hsb⟩ := buildRuneArray_eq hb
    rw [hb] at h
    simp only at h
    cases hr : runLoop s.data (enoughFuel s.data)
        ⟨0, stateStart, substateStart, [], emptyPath⟩ with
    | ok cfg =>
      rw [hr] at h
      simp only at h
      exact ⟨cfg, rfl, hsb, rfl, (Option.some.inj h).symm⟩
    | panic => rw [hr] at h; exact absurd h (by simp)
    | fuelOut => rw [hr] at h; exact absurd h (by simp)

/-- A step only appends reserved/NUL/control character messages. -/
theorem step_errs_chars {arr : List Char} {cfg cfg' : Config}
    (h : step arr cfg = some cfg') :
    ∀ e ∈ cfg'.path.errs,
      e ∈ cfg.path.errs ∨ e = errReserved ∨ e = errNull ∨ e = errControl := by
  have hmem : ∀ (c : Char) (e : String), e ∈ (isPathNameLetter c).toList →
      e = errReserved ∨ e = errNull ∨ e = errControl := by
    intro c e he
    rcases isPathNameLetter_cases c with hc | hc | hc | hc <;> rw [hc] at he <;>
      simp at he <;> simp [he]
  obtain ⟨l, hl⟩ := step_errs h
  intro e he
  rw [hl] at he
  rcases List.mem_append.mp he with h1 | h1
  · exact Or.inl h1
  · right
    -- identify l against the possible step shapes
    rcases hst : cfg.curState with _ | _ | _ | _
    · rcases step_start_cases hst h with ⟨c, -, hcase⟩
      rcases hcase with ⟨-, -, hee⟩ | ⟨-, -, hee⟩ | ⟨-, hee⟩ <;> rw [hee] at hl <;>
        simp at hl <;> rw [hl] at h1 <;> simp at h1
    · rcases step_unc_cases hst h with ⟨c, -, hcase⟩
      rcases hcase with ⟨-, -, hee⟩ | ⟨-, -, -, -, hee⟩ | ⟨-, -, -, -, hee⟩ |
          ⟨-, -, -, -, hee⟩ | ⟨-, -, -, -, hee⟩ | ⟨-, -, -, hee⟩ | ⟨-, hee⟩ <;>
        rw [hee] at hl <;> simp [noteErr_eq] at hl
      all_goals first
        | (exact hmem c e (by rw [← hl]; exact h1))
        | (exact hmem c e (by rw [hl]; exact h1))
        | (rw [hl] at h1; simp at h1)
        | (rw [← hl] at h1; simp at h1)
    · rcases step_drive_cases hst h with ⟨c, -, hcase⟩
      rcases hcase with ⟨d, -, -, hee⟩ | hee <;> rw [hee] at hl <;>
        simp at hl <;> rw [hl] at h1 <;> simp at h1
    · rcases step_pc_cases hst h with ⟨c, -, hcase⟩
      rcases hcase with ⟨-, -, hee⟩ | ⟨-, -, hee⟩ | ⟨-, hee⟩ <;>
        rw [hee] at hl <;> simp [noteErr_eq] at hl
      all_goals first
        | (exact hmem c e (by rw [← hl]; exact h1))
        | (exact hmem c e (by rw [hl]; exact h1))
        | (rw [hl] at h1; simp at h1)
        | (rw [← hl] at h1; simp at h1)

/-! ### Claim C1 -/

/-- C1 (code bug): parsing is NOT total.  The rune-array construction loop
uses the byte offset of Go's `range` as an index into a slice sized by the
rune count, so any input in which a multi-byte scalar is followed by a
further scalar makes `newPathImpl` panic with an out-of-range write; the
two-scalar input `"éa"` is such a failing input.  In general every input
whose scalars are not single-byte up to (at most) the final one panics. -/
theorem c1_parse_not_total :
    (∀ s : String, ¬ sbButLast s.data → newPathImpl s = none) ∧
    newPathImpl "éa" = none ∧ ("éa").length = 2 := by
  refine ⟨?_, ?_, by decide⟩
  · intro s hs
    unfold newPathImpl
    cases hb : buildRuneArray s.data with
    | none => rfl
    | some l => exact absurd (buildRuneArray_eq hb).2 hs
  · decide

/-- Witness for C1's universally quantified part at the concrete failing
input. -/
theorem c1_parse_not_total_witness :
    ¬ sbButLast (String.data "éa") ∧ newPathImpl "éa" = none :=
  ⟨by decide, c1_parse_not_total.1 "éa" (by decide)⟩

/-! ### Claim C9 -/

/-- C9: `MakeDirectory` moves a non-empty `name` to the end of `dirs` and
clears it, is the identity when `name` is empty, and in both cases leaves
`device`, `node`, `absolute`, `unc` (remote), `unicode` (extendedLength)
and the error list unchanged. -/
theorem c9_makeDirectory (p : PathImpl) :
    (p.name ≠ "" → p.MakeDirectory = { p with dirs := p.dirs ++ [p.name], name := "" }) ∧
    (p.name = "" → p.MakeDirectory = p) ∧
    p.MakeDirectory.device = p.device ∧ p.MakeDirectory.node = p.node ∧
    p.MakeDirectory.absolute = p.absolute ∧ p.MakeDirectory.unc = p.unc ∧
    p.MakeDirectory.unicode = p.unicode ∧ p.MakeDirectory.errs = p.errs := by
  by_cases h : 0 < p.name.length
  · have hne : p.name ≠ "" := string_ne_empty_iff.mpr h
    unfold PathImpl.MakeDirectory
    rw [if_pos h]
    exact ⟨fun _ => rfl, fun he => absurd he hne, rfl, rfl, rfl, rfl, rfl, rfl⟩
  · have he : p.name = "" := by
      by_contra hne
      exact h (string_ne_empty_iff.mp hne)
    unfold PathImpl.MakeDirectory
    rw [if_neg h]
    exact ⟨fun hne => absurd he hne, fun _ => rfl, rfl, rfl, rfl, rfl, rfl, rfl⟩

/-- Witness for C9 at a concrete ParsedPath with a non-empty name. -/
theorem c9_makeDirectory_witness :
    PathImpl.MakeDirectory ⟨"", "C", "msys64", [], true, false, false, []⟩ =
      ⟨"", "C", "", ["msys64"], true, false, false, []⟩ :=
  ((c9_makeDirectory ⟨"", "C", "msys64", [], true, false, false, []⟩).1
    (by decide)).trans (by decide)

/-! ### Claim C2 -/

/-- One separator before each directory entry, in order (proof vocabulary
for the serializer's output shape). -/
def sepJoin : List String → String
  | [] => ""
  | d :: rest => "\\" ++ d ++ sepJoin rest

theorem toString_foldl (dirs : List String) (u : String) (b : Bool) :
    dirs.foldl (fun (a : String × Bool) d => (a.1 ++ "\\" ++ d, true)) (u, b) =
      (u ++ sepJoin dirs, b || !dirs.isEmpty) := by
  induction dirs generalizing u b with
  | nil => simp [sepJoin]
  | cons d rest ih =>
    rw [List.foldl_cons, ih]
    refine Prod.ext ?_ ?_
    · show u ++ "\\" ++ d ++ sepJoin rest = u ++ ("\\" ++ d ++ sepJoin rest)
      simp only [String.append_assoc]
    · simp

/-- C2 counterexample: the all-empty ParsedPath has no prefix, no
components and `absolute = false`, yet `ToString` emits a single trailing
separator rather than the empty string. -/
theorem c2_counterexample :
    emptyPath.absolute = false ∧ emptyPath.ToString = "\\" ∧ ¬ emptyPath.ToString = "" := by
  refine ⟨rfl, rfl, by decide⟩

/-- Shape of the canonical serializer's output (helper). -/
theorem toString_shape (p : PathImpl) :
    p.ToString = (if 0 < p.device.length then p.device ++ ":" else "") ++
      ((if 0 < p.node.length then "\\\\" ++ p.node else "") ++
        (sepJoin p.dirs ++
          ((if 0 < p.name.length then "\\" ++ p.name else "") ++
            (if p.dirs = [] ∧ p.name.length = 0 then "\\" else "")))) := by
  unfold PathImpl.ToString
  dsimp only
  rw [toString_foldl]
  by_cases hd : p.dirs = [] <;> by_cases hn : 0 < p.name.length
  · have hne := hn.ne'
    simp [hd, hn, hne, sepJoin, String.append_assoc, String.empty_append,
      String.append_empty]
    by_cases hv : 0 < p.node.length <;>
      simp [hv, String.append_assoc, String.empty_append]
  · have hn0 : p.name.length = 0 := by omega
    simp [hd, hn, hn0, sepJoin, String.append_assoc, String.empty_append,
      String.append_empty]
    by_cases hv : 0 < p.node.length <;>
      simp [hv, String.append_assoc, String.empty_append]
  · have hne := hn.ne'
    have hie : p.dirs.isEmpty = false := by
      rcases hl : p.dirs with _ | ⟨a, l⟩
      · exact absurd hl hd
      · rfl
    simp [hd, hie, hn, hne, String.append_assoc, String.empty_append,
      String.append_empty]
    by_cases hv : 0 < p.node.length <;>
      simp [hv, String.append_assoc, String.empty_append]
  · have hn0 : p.name.length = 0 := by omega
    have hie : p.dirs.isEmpty = false := by
      rcases hl : p.dirs with _ | ⟨a, l⟩
      · exact absurd hl hd
      · rfl
    simp [hd, hie, hn, hn0, String.append_assoc, String.empty_append,
      String.append_empty]
    by_cases hv : 0 < p.node.length <;>
      simp [hv, String.append_assoc, String.empty_append]

/-- C2 (amended): `ToString` emits the `DEVICE:` and then `\\NODE` prefix
pieces, each `dirs` entry and the `name` each preceded by exactly one
separator; and it appends a single trailing separator exactly when there
are no components (`dirs` and `name` both empty), regardless of the
`absolute` flag and regardless of whether a prefix was emitted — so the
result is never the empty string. -/
theorem c2_toString_amended (p : PathImpl) :
    p.ToString = (if 0 < p.device.length then p.device ++ ":" else "") ++
      ((if 0 < p.node.length then "\\\\" ++ p.node else "") ++
        (sepJoin p.dirs ++
          ((if 0 < p.name.length then "\\" ++ p.name else "") ++
            (if p.dirs = [] ∧ p.name.length = 0 then "\\" else "")))) :=
  toString_shape p

/-! ### Claim C5 -/

/-- C5: in the UNC-prefix state with the extended marker seen
(`substateUnicode`), a separator with a pending buffer either consumes the
buffer `UNC` (no component emitted, moving to `substateUnicodeUNC`), or
rewinds the cursor by exactly the buffered component's length and resumes
in the drive state; consequently `\\?\UNC\peaches\msys64` parses to
node `peaches`, name `msys64` with the remote and extended-length flags
set, and `\\?\C:\msys64` parses to device `C` as an extended-length local
path with no node. -/
theorem c5_extended_disambiguation :
    (∀ (arr : List Char) (cfg : Config),
      cfg.curState = stateUNC → cfg.curSubState = substateUnicode →
      runeAt arr cfg.curIdx = some '\\' → ¬ cfg.curStack = [] →
      step arr cfg = if String.mk cfg.curStack = "UNC"
        then some ⟨cfg.curIdx + 1, stateUNC, substateUnicodeUNC, [], cfg.path⟩
        else some ⟨cfg.curIdx - (goLen cfg.curStack : Int), stateDrive, cfg.curSubState,
          [], cfg.path⟩) ∧
    newPathImpl "\\\\?\\UNC\\peaches\\msys64" =
      some ⟨"peaches", "", "msys64", [], false, true, true, [errReserved]⟩ ∧
    newPathImpl "\\\\?\\C:\\msys64" =
      some ⟨"", "C", "msys64", [], true, false, true, [errReserved, errReserved]⟩ := by
  refine ⟨?_, by decide, by decide⟩
  intro arr cfg h1 h2 h3 h4
  have hlen : cfg.curStack.length > 0 := List.length_pos.mpr h4
  unfold step
  rw [h3, h1]
  simp only [h2]
  rw [if_pos trivial, if_pos hlen]

/-- Witness for C5's step rule, at a consuming and a rewinding concrete
configuration. -/
theorem c5_extended_disambiguation_witness :
    step ['U', 'N', 'C', '\\'] ⟨3, stateUNC, substateUnicode, ['U', 'N', 'C'], emptyPath⟩ =
      some ⟨4, stateUNC, substateUnicodeUNC, [], emptyPath⟩ ∧
    step ['a', 'b', '\\'] ⟨2, stateUNC, substateUnicode, ['a', 'b'], emptyPath⟩ =
      some ⟨0, stateDrive, substateUnicode, [], emptyPath⟩ := by
  constructor
  · exact (c5_extended_disambiguation.1 ['U', 'N', 'C', '\\']
      ⟨3, stateUNC, substateUnicode, ['U', 'N', 'C'], emptyPath⟩
      rfl rfl (by decide) (by decide)).trans (by decide)
  · exact (c5_extended_disambiguation.1 ['a', 'b', '\\']
      ⟨2, stateUNC, substateUnicode, ['a', 'b'], emptyPath⟩
      rfl rfl (by decide) (by decide)).trans (by decide)

/-! ### Claim C7 -/

/-- C7 counterexample: the one-scalar input `?` consists of a single
illegal (reserved) scalar, yet the returned error list has TWO entries:
the scalar is validated once while being consumed in the path-component
state and once more by the final name pass. -/
theorem c7_counterexample :
    ("?").length = 1 ∧ (newPathImpl "?").map (fun p => p.errs.length) = some 2 := by
  exact ⟨by decide, by decide⟩

/-- C7 (amended): character validation never halts parsing.  A
non-separator scalar consumed in the path-component or UNC state is always
appended to the pending buffer and contributes the error record of
`isPathNameLetter` — exactly one record exactly when the scalar is one of
the reserved characters, NUL, or a control scalar in 1–31; scalars left in
the final buffer are validated a second time by the name pass, which
appends one further record per illegal scalar of the name. -/
theorem c7_validation_amended :
    (∀ (arr : List Char) (cfg : Config) (c : Char),
      cfg.curState = statePathComponent → runeAt arr cfg.curIdx = some c → ¬ c = '\\' →
      step arr cfg = some ⟨cfg.curIdx + 1, statePathComponent, cfg.curSubState,
        cfg.curStack ++ [c],
        { cfg.path with errs := cfg.path.errs ++ (isPathNameLetter c).toList }⟩) ∧
    (∀ (arr : List Char) (cfg : Config) (c : Char),
      cfg.curState = stateUNC → runeAt arr cfg.curIdx = some c → ¬ c = '\\' →
      step arr cfg = some ⟨cfg.curIdx + 1, stateUNC, cfg.curSubState,
        cfg.curStack ++ [c],
        { cfg.path with errs := cfg.path.errs ++ (isPathNameLetter c).toList }⟩) ∧
    (∀ c : Char, (isPathNameLetter c).toList.length =
      (if (c = '<' ∨ c = '>' ∨ c = ':' ∨ c = '"' ∨ c = '/' ∨ c = '\\' ∨ c = '|' ∨
            c = '?' ∨ c = '*') ∨ c.toNat = 0 ∨ (1 ≤ c.toNat ∧ c.toNat ≤ 31)
        then 1 else 0)) ∧
    (∀ (stack : List Char) (q : PathImpl), finishName stack q =
      if stack.length > 0
        then { q with name := String.mk stack, errs := q.errs ++ stack.filterMap isPathNameLetter }
        else q) := by
  refine ⟨?_, ?_, ?_, finishName_eq⟩
  · intro arr cfg c h1 h2 h3
    unfold step
    rw [h2, h1]
    simp only []
    rw [if_neg h3, noteErr_eq]
  · intro arr cfg c h1 h2 h3
    unfold step
    rw [h2, h1]
    simp only []
    rw [if_neg h3, noteErr_eq]
  · intro c
    unfold isPathNameLetter
    by_cases h1 : c = '<' ∨ c = '>' ∨ c = ':' ∨ c = '"' ∨ c = '/' ∨ c = '\\' ∨
        c = '|' ∨ c = '?' ∨ c = '*'
    · rw [if_pos h1, if_pos (Or.inl h1)]
      rfl
    · rw [if_neg h1]
      by_cases h2 : c.toNat = 0
      · rw [if_pos h2, if_pos (Or.inr (Or.inl h2))]
        rfl
      · rw [if_neg h2]
        by_cases h3 : 1 ≤ c.toNat ∧ c.toNat ≤ 31
        · rw [if_pos h3, if_pos (Or.inr (Or.inr h3))]
          rfl
        · rw [if_neg h3, if_neg (by tauto)]
          rfl

/-- Witness for C7: the step rule applied at a concrete illegal scalar
(`?` in a component), and the final name pass at a concrete leftover
buffer. -/
theorem c7_validation_amended_witness :
    step ['?'] ⟨0, statePathComponent, substateStart, [], emptyPath⟩ =
      some ⟨1, statePathComponent, substateStart, ['?'],
        ⟨"", "", "", [], false, false, false, [errReserved]⟩⟩ ∧
    finishName ['?'] ⟨"", "", "", [], false, false, false, [errReserved]⟩ =
      ⟨"", "", "?", [], false, false, false, [errReserved, errReserved]⟩ := by
  constructor
  · exact (c7_validation_amended.1 ['?'] ⟨0, statePathComponent, substateStart, [], emptyPath⟩
      '?' rfl (by decide) (by decide)).trans (by decide)
  · exact (c7_validation_amended.2.2.2 ['?']
      ⟨"", "", "", [], false, false, false, [errReserved]⟩).trans (by decide)

/-! ### Claim C10 -/

/-- C10: every input whose first four scalars are the extended-length
marker `\\?\` comes back with a non-empty error list: the `?` marker
scalar is buffered in the UNC-prefix state and flagged as a reserved
character; in the extended local form the drive colon buffered before the
rewind is additionally flagged, so `\\?\C:\x` carries two reserved-character
records. -/
theorem c10_marker_always_flagged :
    (∀ (s : String) (p : PathImpl) (rest : List Char),
      s.data = '\\' :: '\\' :: '?' :: '\\' :: rest →
      newPathImpl s = some p → errReserved ∈ p.errs) ∧
    (newPathImpl "\\\\?\\C:\\x").map (fun p => p.errs) =
      some [errReserved, errReserved] := by
  constructor
  · intro s p rest hdata hparse
    obtain ⟨cfg, hb, hsb, hrun, hp⟩ := newPathImpl_ok hparse
    have hlen : 4 ≤ s.data.length := by rw [hdata]; simp
    have hlen4 : (4 : Int) ≤ (s.data.length : Int) := by exact_mod_cast hlen
    have hs1 : step s.data ⟨0, stateStart, substateStart, [], emptyPath⟩ =
        some ⟨2, stateUNC, substateStart, [], emptyPath⟩ := by
      rw [hdata]
      rfl
    have hs2 : step s.data ⟨2, stateUNC, substateStart, [], emptyPath⟩ =
        some ⟨3, stateUNC, substateStart, ['?'],
          ⟨"", "", "", [], false, false, false, [errReserved]⟩⟩ := by
      rw [hdata]
      rfl
    have hf : enoughFuel s.data = (enoughFuel s.data - 2) + 1 + 1 := by
      unfold enoughFuel
      omega
    rw [hf] at hrun
    rw [runLoop_step _ (by show (0 : Int) < (s.data.length : Int); omega) hs1] at hrun
    rw [runLoop_step _ (by show (2 : Int) < (s.data.length : Int); omega) hs2] at hrun
    obtain ⟨l, hl⟩ := runLoop_errs hrun
    simp only at hl
    subst hp
    obtain ⟨l2, hcl⟩ := checkLength_exists s (finishName cfg.curStack cfg.path)
    rw [hcl]
    obtain ⟨l3, hfn⟩ : ∃ l3, (finishName cfg.curStack cfg.path).errs = cfg.path.errs ++ l3 := by
      rw [finishName_eq]
      split_ifs
      · exact ⟨_, rfl⟩
      · exact ⟨[], by simp⟩
    simp only [hfn, hl]
    simp
  · decide

/-- Witness for C10's universally quantified part at a concrete
extended-length input. -/
theorem c10_marker_always_flagged_witness :
    errReserved ∈
      (checkLength "\\\\?\\x" (finishName ['x']
        ⟨"", "", "", [], false, false, true, [errReserved]⟩)).errs := by
  have h := c10_marker_always_flagged.1 "\\\\?\\x"
    (checkLength "\\\\?\\x" (finishName ['x']
      ⟨"", "", "", [], false, false, true, [errReserved]⟩))
    ['x'] (by decide) (by decide)
  exact h

/-! ### Claim C3 -/

/-- C3 counterexample input: 255 scalars (254 ASCII `a` plus one
two-byte scalar `é`), whose Go byte length is 256. -/
def cexC3 : String := String.mk (List.replicate 254 'a' ++ ['é'])

/-- C3 counterexample: the length validator compares Go `len(path)` — the
UTF-8 byte count — against the ceiling, not the raw scalar count: this
non-extended input of exactly 255 scalars nevertheless receives the
`PathTooLong` error because it is 256 bytes long. -/
theorem c3_counterexample :
    cexC3.length = 255 ∧ goLen cexC3.data = 256 ∧
    (newPathImpl cexC3).map (fun p => (p.unicode, decide (errTooLong ∈ p.errs))) =
      some (false, true) := by
  refine ⟨by decide, by decide, by decide⟩

/-- C3 (amended): the length validator runs once, after tokenization, and
appends exactly one PathTooLong error if and only if the UTF-8 byte count
(Go `len`) of the original input exceeds 32767 when extendedLength is set,
or exceeds 255 otherwise. -/
theorem c3_length_check_amended (s : String) (p : PathImpl)
    (h : newPathImpl s = some p) :
    p.errs.count errTooLongUnicode + p.errs.count errTooLong =
      if (p.unicode = true ∧ goLen s.data > 32767) ∨
          (p.unicode = false ∧ goLen s.data > 255)
        then 1 else 0 := by
  obtain ⟨cfg, hb, hsb, hrun, hp⟩ := newPathImpl_ok h
  have hchars : ∀ e ∈ cfg.path.errs, e = errReserved ∨ e = errNull ∨ e = errControl := by
    exact runLoop_inv
      (P := fun c => ∀ e ∈ c.path.errs, e = errReserved ∨ e = errNull ∨ e = errControl)
      (fun c c' hPc hs e he => by
        rcases step_errs_chars hs e he with hin | h3
        · exact hPc e hin
        · exact h3)
      (enoughFuel s.data) _ cfg (by intro e he; simp [emptyPath] at he) hrun
  have hqchars : ∀ e ∈ (finishName cfg.curStack cfg.path).errs,
      e = errReserved ∨ e = errNull ∨ e = errControl := by
    rw [finishName_eq]
    split_ifs
    · intro e he
      simp only at he
      rcases List.mem_append.mp he with h1 | h1
      · exact hchars e h1
      · obtain ⟨c, -, hc⟩ := List.mem_filterMap.mp h1
        rcases isPathNameLetter_cases c with hx | hx | hx | hx <;> rw [hx] at hc <;>
          simp at hc <;> simp [hc]
    · exact hchars
  set q := finishName cfg.curStack cfg.path with hq
  have hcount1 : q.errs.count errTooLongUnicode = 0 := by
    rw [List.count_eq_zero]
    intro hmem
    rcases hqchars _ hmem with h1 | h1 | h1 <;> exact absurd h1 (by decide)
  have hcount2 : q.errs.count errTooLong = 0 := by
    rw [List.count_eq_zero]
    intro hmem
    rcases hqchars _ hmem with h1 | h1 | h1 <;> exact absurd h1 (by decide)
  have hcu : (checkLength s q).unicode = q.unicode := by
    unfold checkLength
    split_ifs <;> rfl
  rw [hp, hcu]
  by_cases h1 : q.unicode = true ∧ goLen s.data > 32767
  · unfold checkLength
    rw [if_pos h1, if_pos (Or.inl h1)]
    simp only [List.count_append, hcount1, hcount2]
    decide
  · by_cases h2 : q.unicode = false ∧ goLen s.data > 255
    · unfold checkLength
      rw [if_neg h1, if_pos h2, if_pos (Or.inr h2)]
      simp only [List.count_append, hcount1, hcount2]
      decide
    · unfold checkLength
      rw [if_neg h1, if_neg h2, if_neg (by rintro (hc | hc); exacts [h1 hc, h2 hc])]
      simp only [hcount1, hcount2]

/-! ### Infrastructure for the round-trip claim -/

/-- A well-formed recorded component: non-empty, separator-free, and
single-byte throughout (what the parser can actually record in `dirs` and
`node`). -/
def goodComp (t : String) : Prop :=
  t.data ≠ [] ∧ ∀ c ∈ t.data, ¬ c = '\\' ∧ utf8Size c = 1

/-- The scalars of a component list as serialized: one separator before
each component. -/
def joinComps (l : List (List Char)) : List Char :=
  (l.map (fun d => '\\' :: d)).join

/-- Directory entries flushed while the path-component state consumes
`joinComps l` starting with pending buffer `stack`. -/
def flushDirs : List Char → List (List Char) → List String
  | _, [] => []
  | stack, d :: rest =>
    (if stack = [] then [] else [String.mk stack]) ++ flushDirs d rest

/-- The pending buffer left after the path-component state consumes
`joinComps l` starting with pending buffer `stack`. -/
def finalStack : List Char → List (List Char) → List Char
  | stack, [] => stack
  | _, d :: rest => finalStack d rest

theorem char_le_iff {a b : Char} : a ≤ b ↔ a.toNat ≤ b.toNat := by
  rw [Char.le_def]
  exact UInt32.le_def

theorem isDriveLetter_toNat {c d : Char} (h : isDriveLetter c = some d) :
    65 ≤ d.toNat ∧ d.toNat ≤ 90 := by
  unfold isDriveLetter at h
  split_ifs at h with h1 h2
  · obtain ⟨ha, hz⟩ := h1
    rw [char_le_iff] at ha hz
    have ha' : 97 ≤ c.toNat := ha
    have hz' : c.toNat ≤ 122 := hz
    have hval : Nat.isValidChar (c.toNat - 32) := Or.inl (by omega)
    obtain rfl : Char.ofNat (c.toNat - 32) = d := Option.some.inj h
    rw [Char.ofNat, dif_pos hval]
    have htn : (Char.ofNatAux (c.toNat - 32) hval).toNat = c.toNat - 32 := rfl
    rw [htn]
    omega
  · obtain rfl : c = d := Option.some.inj h
    obtain ⟨ha, hz⟩ := h2
    rw [char_le_iff] at ha hz
    exact ⟨ha, hz⟩

theorem isDriveLetter_upper {d : Char} (h1 : 65 ≤ d.toNat) (h2 : d.toNat ≤ 90) :
    isDriveLetter d = some d := by
  unfold isDriveLetter
  rw [if_neg, if_pos]
  · constructor <;> rw [char_le_iff]
    · exact h1
    · exact h2
  · rintro ⟨ha, -⟩
    rw [char_le_iff] at ha
    have : (97 : Nat) ≤ d.toNat := ha
    omega

theorem upper_ne_sep {d : Char} (h2 : d.toNat ≤ 90) : ¬ d = '\\' := by
  intro h
  rw [h] at h2
  exact absurd h2 (by decide)

theorem upper_sb {d : Char} (h2 : d.toNat ≤ 90) : utf8Size d = 1 := by
  unfold utf8Size
  rw [if_pos (by omega)]

/-- Mutual-exclusivity invariant of the loop: the drive state is only ever
entered with no node recorded, the UNC state with neither recorded, and in
the path-component state at most one of the two is recorded. -/
def meInv (cfg : Config) : Prop :=
  match cfg.curState with
  | stateStart => cfg.path.device = "" ∧ cfg.path.node = ""
  | stateUNC => cfg.path.device = "" ∧ cfg.path.node = ""
  | stateDrive => cfg.path.node = ""
  | statePathComponent => cfg.path.device = "" ∨ cfg.path.node = ""

theorem step_meInv {arr : List Char} {cfg cfg' : Config}
    (hp : meInv cfg) (hs : step arr cfg = some cfg') : meInv cfg' := by
  unfold meInv at hp
  rcases hst : cfg.curState with _ | _ | _ | _ <;> rw [hst] at hp <;> simp only at hp
  · rcases step_start_cases hst hs with ⟨c, -, hcase⟩
    rcases hcase with ⟨-, -, he⟩ | ⟨-, -, he⟩ | ⟨-, he⟩ <;> rw [he] <;> unfold meInv <;>
      simp only
    · exact hp
    · exact Or.inl hp.1
    · exact hp.2
  · rcases step_unc_cases hst hs with ⟨c, -, hcase⟩
    rcases hcase with ⟨-, -, he⟩ | ⟨-, -, -, -, he⟩ | ⟨-, -, -, -, he⟩ |
        ⟨-, -, -, -, he⟩ | ⟨-, -, -, -, he⟩ | ⟨-, -, -, he⟩ | ⟨-, he⟩ <;> rw [he] <;>
      unfold meInv <;> simp only [noteErr_eq]
    · exact hp
    · exact hp
    · exact Or.inl hp.1
    · exact hp
    · exact hp.2
    · exact Or.inl hp.1
    · exact hp
  · rcases step_drive_cases hst hs with ⟨c, -, hcase⟩
    rcases hcase with ⟨d, -, -, he⟩ | he <;> rw [he] <;> unfold meInv <;> simp only
    · exact Or.inr hp
    · exact Or.inr hp
  · rcases step_pc_cases hst hs with ⟨c, -, hcase⟩
    rcases hcase with ⟨-, -, he⟩ | ⟨-, -, he⟩ | ⟨-, he⟩ <;> rw [he] <;> unfold meInv <;>
      simp only [noteErr_eq]
    · exact hp
    · exact hp
    · exact hp

/-- Helper behind C8: the parse result never records both a device and a
node. -/
theorem parse_me {s : String} {p : PathImpl} (h : newPathImpl s = some p) :
    p.device = "" ∨ p.node = "" := by
  obtain ⟨cfg, hb, hsb, hrun, hp⟩ := newPathImpl_ok h
  have hfin : meInv cfg :=
    runLoop_inv (P := meInv) (fun c c' hc hs => step_meInv hc hs)
      (enoughFuel s.data) _ cfg (by unfold meInv; exact ⟨rfl, rfl⟩) hrun
  have hdn : cfg.path.device = "" ∨ cfg.path.node = "" := by
    unfold meInv at hfin
    rcases hst : cfg.curState with _ | _ | _ | _ <;> rw [hst] at hfin <;>
      simp only at hfin
    · exact Or.inl hfin.1
    · exact Or.inl hfin.1
    · exact Or.inr hfin
    · exact hfin
  rw [hp]
  obtain ⟨l2, hcl⟩ := checkLength_exists s (finishName cfg.curStack cfg.path)
  rw [hcl]
  rw [finishName_eq]
  split_ifs <;> simpa using hdn

/-! ### Single-step evaluation helpers -/

theorem step_push {arr : List Char} {st : ParseState} {i : Int}
    {sub : ParseSubState} {stack : List Char} {q : PathImpl} {c : Char}
    (hst : st = statePathComponent ∨ st = stateUNC)
    (hr : runeAt arr i = some c) (hc : ¬ c = '\\') :
    step arr ⟨i, st, sub, stack, q⟩ =
      some ⟨i + 1, st, sub, stack ++ [c], noteErr q c⟩ := by
  rcases hst with rfl | rfl <;> (unfold step; rw [hr]; simp only; rw [if_neg hc])

theorem step_sep_pc {arr : List Char} {i : Int} {sub : ParseSubState}
    {stack : List Char} {q : PathImpl}
    (hr : runeAt arr i = some '\\') :
    step arr ⟨i, statePathComponent, sub, stack, q⟩ =
      some ⟨i + 1, statePathComponent, sub, [],
        { q with dirs := q.dirs ++ (if stack = [] then [] else [String.mk stack]) }⟩ := by
  unfold step
  rw [hr]
  simp only
  rw [if_pos trivial]
  rcases stack with _ | ⟨a, l⟩
  · rw [if_neg (by simp)]
    simp
  · rw [if_pos (by simp)]
    rw [if_neg (by simp)]

theorem step_start_other {arr : List Char} {i : Int} {sub : ParseSubState}
    {stack : List Char} {q : PathImpl} {c : Char}
    (hr : runeAt arr i = some c) (hc : ¬ c = '\\') :
    step arr ⟨i, stateStart, sub, stack, q⟩ =
      some ⟨i, stateDrive, sub, stack, q⟩ := by
  unfold step
  rw [hr]
  simp only
  rw [if_neg (fun h => hc h.1), if_neg hc]

theorem step_start_abs {arr : List Char} {i : Int} {sub : ParseSubState}
    {stack : List Char} {q : PathImpl}
    (hr : runeAt arr i = some '\\') (hr2 : ¬ runeAt arr (i + 1) = some '\\') :
    step arr ⟨i, stateStart, sub, stack, q⟩ =
      some ⟨i + 1, statePathComponent, sub, stack, { q with absolute := true }⟩ := by
  unfold step
  rw [hr]
  simp only
  rw [if_neg (fun h => hr2 h.2), if_pos trivial]

theorem step_start_unc {arr : List Char} {i : Int} {sub : ParseSubState}
    {stack : List Char} {q : PathImpl}
    (hr : runeAt arr i = some '\\') (hr2 : runeAt arr (i + 1) = some '\\') :
    step arr ⟨i, stateStart, sub, stack, q⟩ =
      some ⟨i + 2, stateUNC, sub, stack, q⟩ := by
  unfold step
  rw [hr]
  simp only
  rw [if_pos ⟨trivial, hr2⟩]

theorem step_drive_hit {arr : List Char} {i : Int} {sub : ParseSubState}
    {stack : List Char} {q : PathImpl} {c d : Char}
    (hr : runeAt arr i = some c) (hd : isDriveLetter c = some d)
    (hcolon : runeAt arr (i + 1) = some ':') :
    step arr ⟨i, stateDrive, sub, stack, q⟩ =
      some ⟨i + 2, statePathComponent, sub, stack,
        { q with
          device := String.mk [d],
          absolute := if runeAt arr (i + 2) = some '\\' then true
            else q.absolute }⟩ := by
  unfold step
  rw [hr]
  simp only
  rw [hd]
  simp only
  rw [if_pos hcolon]
  split_ifs <;> rfl

theorem step_unc_node {arr : List Char} {i : Int} {sub : ParseSubState}
    {stack : List Char} {q : PathImpl}
    (hsub : sub = substateStart)
    (hr : runeAt arr i = some '\\') (hne : ¬ stack = [])
    (hq : ¬ String.mk stack = "?") :
    step arr ⟨i, stateUNC, sub, stack, q⟩ =
      some ⟨i + 1, statePathComponent, sub, [],
        { q with node := String.mk stack, unc := true }⟩ := by
  unfold step
  rw [hr]
  simp only [hsub]
  rw [if_pos trivial, if_pos (List.length_pos.mpr hne), if_neg hq]

/-! ### Multi-step run lemmas for the path-component phase -/

theorem run_to_exit {arr : List Char} {f : Nat} {i : Int} {st : ParseState}
    {sub : ParseSubState} {stack : List Char} {q : PathImpl}
    (h0 : 0 ≤ i) (hd : arr.drop i.toNat = []) :
    runLoop arr f ⟨i, st, sub, stack, q⟩ = Res.ok ⟨i, st, sub, stack, q⟩ := by
  apply runLoop_exit
  simp only
  have hle : arr.length ≤ i.toNat := by
    by_contra hlt
    push_neg at hlt
    rcases hcons : arr.drop i.toNat with _ | ⟨a, l⟩
    · have := List.drop_eq_nil_iff_le.mp hcons
      omega
    · rw [hd] at hcons
      exact absurd hcons (by simp)
  omega

theorem run_accum {arr : List Char} {st : ParseState}
    (hst : st = statePathComponent ∨ st = stateUNC) :
    ∀ (d : List Char), (∀ c ∈ d, ¬ c = '\\') →
      ∀ (i : Int) (sub : ParseSubState) (stack : List Char) (q : PathImpl)
        (f : Nat) (rest : List Char),
        0 ≤ i → arr.drop i.toNat = d ++ rest →
        runLoop arr (f + d.length) ⟨i, st, sub, stack, q⟩ =
          runLoop arr f ⟨i + (d.length : Int), st, sub, stack ++ d, d.foldl noteErr q⟩ := by
  intro d
  induction d with
  | nil =>
    intro _ i sub stack q f rest h0 hd
    simp
  | cons c d ih =>
    intro hfree i sub stack q f rest h0 hd
    have hc : ¬ c = '\\' := hfree c (by simp)
    have hfree2 : ∀ x ∈ d, ¬ x = '\\' := fun x hx => hfree x (by simp [hx])
    have hr : runeAt arr i = some c := runeAt_of_drop h0 (by rw [hd]; rfl)
    have hi : i < (arr.length : Int) := (runeAt_some hr).2
    have hstep := @step_push arr st i sub stack q c hst hr hc
    have hlen : f + (c :: d).length = (f + d.length) + 1 := by
      simp [List.length_cons]
      omega
    rw [hlen, runLoop_step _ hi hstep]
    have hd2 : arr.drop (i + 1).toNat = d ++ rest := by
      rw [drop_toNat_succ h0, hd]
      rfl
    rw [ih hfree2 (i + 1) sub (stack ++ [c]) (noteErr q c) f rest (by omega) hd2]
    have hidx : i + 1 + (d.length : Int) = i + ((c :: d).length : Int) := by
      push_cast [List.length_cons]
      ring
    have hstk : (stack ++ [c]) ++ d = stack ++ c :: d := by simp
    rw [hidx, hstk]
    rfl

theorem flushDirs_cons (stack : List Char) (d : List Char) (rest : List (List Char)) :
    flushDirs stack (d :: rest) =
      (if stack = [] then [] else [String.mk stack]) ++ flushDirs d rest := rfl

theorem finalStack_cons (stack : List Char) (d : List Char) (rest : List (List Char)) :
    finalStack stack (d :: rest) = finalStack d rest := rfl

theorem run_comps {arr : List Char} :
    ∀ (l : List (List Char)) (i : Int) (sub : ParseSubState) (stack : List Char)
      (q : PathImpl) (f : Nat),
      (∀ d ∈ l, d ≠ [] ∧ ∀ c ∈ d, ¬ c = '\\') → 0 ≤ i →
      arr.drop i.toNat = joinComps l →
      ∃ E, runLoop arr (f + (joinComps l).length)
          ⟨i, statePathComponent, sub, stack, q⟩ =
        runLoop arr f ⟨i + ((joinComps l).length : Int), statePathComponent, sub,
          finalStack stack l,
          ⟨q.node, q.device, q.name, q.dirs ++ flushDirs stack l,
            q.absolute, q.unc, q.unicode, E⟩⟩ := by
  intro l
  induction l with
  | nil =>
    intro i sub stack q f _ h0 hd
    refine ⟨q.errs, ?_⟩
    have h1 : finalStack stack [] = stack := rfl
    have h2 : flushDirs stack [] = [] := rfl
    rw [h1, h2, List.append_nil]
    simp [joinComps]
  | cons d rest ih =>
    intro i sub stack q f hwf h0 hd
    have hdfree : ∀ c ∈ d, ¬ c = '\\' := (hwf d (by simp)).2
    have hwf2 : ∀ x ∈ rest, x ≠ [] ∧ ∀ c ∈ x, ¬ c = '\\' :=
      fun x hx => hwf x (by simp [hx])
    have hjc : joinComps (d :: rest) = '\\' :: (d ++ joinComps rest) := by
      simp [joinComps]
    have hr : runeAt arr i = some '\\' := runeAt_of_drop h0 (by rw [hd, hjc])
    have hi : i < (arr.length : Int) := (runeAt_some hr).2
    have hsep := @step_sep_pc arr i sub stack q hr
    have hlen : f + (joinComps (d :: rest)).length =
        (((f + (joinComps rest).length) + d.length)) + 1 := by
      rw [hjc]
      simp [List.length_cons, List.length_append]
      omega
    rw [hlen, runLoop_step _ hi hsep]
    have hd1 : arr.drop (i + 1).toNat = d ++ joinComps rest := by
      rw [drop_toNat_succ h0, hd, hjc]
      rfl
    rw [run_accum (Or.inl rfl) d hdfree (i + 1) sub []
      _ (f + (joinComps rest).length) (joinComps rest) (by omega) hd1]
    simp only [List.nil_append]
    rw [foldl_noteErr]
    have hd2 : arr.drop (i + 1 + (d.length : Int)).toNat = joinComps rest := by
      have he : (i + 1 + (d.length : Int)).toNat = (i.toNat + 1) + d.length := by omega
      rw [he, ← List.drop_drop]
      have he2 : i.toNat + 1 = (i + 1).toNat := by omega
      rw [he2, hd1, List.drop_left]
    obtain ⟨E2, hrest⟩ := ih (i + 1 + (d.length : Int)) sub d _ f hwf2 (by omega) hd2
    refine ⟨E2, ?_⟩
    rw [hrest]
    have hidx : i + 1 + (d.length : Int) + ((joinComps rest).length : Int) =
        i + ((joinComps (d :: rest)).length : Int) := by
      rw [hjc]
      push_cast [List.length_cons, List.length_append]
      ring
    rw [hidx, flushDirs_cons, finalStack_cons]
    simp [List.append_assoc]

/-! ### Shape of parse results -/

theorem runeAt_sb {arr : List Char} (hsb : sbButLast arr) {i : Int} {c : Char}
    (h : runeAt arr i = some c) (hlt : i + 1 < (arr.length : Int)) :
    utf8Size c = 1 := by
  obtain ⟨h0, hin⟩ := runeAt_some h
  unfold runeAt at h
  rw [if_pos h0, List.head?_drop] at h
  have hc2 : (arr.dropLast)[i.toNat]? = some c := by
    rw [List.dropLast_eq_take, List.getElem?_take, if_pos (by omega)]
    exact h
  exact hsb c (List.getElem?_mem hc2)

theorem sbButLast_of_sbAll {l : List Char} (h : ∀ c ∈ l, utf8Size c = 1) :
    sbButLast l :=
  fun c hc => h c (List.dropLast_subset l hc)

theorem sbButLast_append {a b : List Char} (ha : ∀ c ∈ a, utf8Size c = 1)
    (hb : sbButLast b) : sbButLast (a ++ b) := by
  rcases b with _ | ⟨x, t⟩
  · intro c hc
    rw [List.append_nil] at hc
    exact ha c (List.dropLast_subset a hc)
  · intro c hc
    rw [List.dropLast_append_of_ne_nil _ (List.cons_ne_nil x t)] at hc
    rcases List.mem_append.mp hc with h1 | h1
    · exact ha c h1
    · exact hb c h1

/-- Invariant of the loop on arrays whose scalars are single-byte except
possibly the last: the pending buffer is separator-free and single-byte
(except possibly a trailing last scalar once the input is exhausted), the
name is still unset, and every recorded component is well formed. -/
def shapeInv (n : Int) (cfg : Config) : Prop :=
  (∀ c ∈ cfg.curStack, ¬ c = '\\') ∧
  (cfg.curIdx < n → ∀ c ∈ cfg.curStack, utf8Size c = 1) ∧
  (∀ c ∈ cfg.curStack.dropLast, utf8Size c = 1) ∧
  cfg.path.name = "" ∧
  (cfg.path.device = "" ∨
    ∃ d, cfg.path.device = String.mk [d] ∧ 65 ≤ d.toNat ∧ d.toNat ≤ 90) ∧
  (cfg.path.node = "" ∨ goodComp cfg.path.node) ∧
  (∀ t ∈ cfg.path.dirs, goodComp t)

theorem step_shapeInv {arr : List Char} (hsb : sbButLast arr) {cfg cfg' : Config}
    (hp : shapeInv (arr.length : Int) cfg) (hs : step arr cfg = some cfg') :
    shapeInv (arr.length : Int) cfg' := by
  obtain ⟨hp1, hp2, hp3, hp4, hp5, hp6, hp7⟩ := hp
  rcases hst : cfg.curState with _ | _ | _ | _
  · rcases step_start_cases hst hs with ⟨c, hr, hcase⟩
    have hi := (runeAt_some hr).2
    have hstk := hp2 hi
    rcases hcase with ⟨-, -, he⟩ | ⟨-, -, he⟩ | ⟨-, he⟩ <;> rw [he] <;>
      exact ⟨hp1, fun _ => hstk, hp3, hp4, hp5, hp6, hp7⟩
  · rcases step_unc_cases hst hs with ⟨c, hr, hcase⟩
    have hi := (runeAt_some hr).2
    have hstk := hp2 hi
    rcases hcase with ⟨-, -, he⟩ | ⟨-, hne, -, -, he⟩ | ⟨-, hne, -, -, he⟩ |
        ⟨-, hne, -, -, he⟩ | ⟨-, hne, -, -, he⟩ | ⟨-, hne, -, he⟩ | ⟨hc, he⟩
    · rw [he]
      exact ⟨hp1, fun _ => hstk, hp3, hp4, hp5, hp6, hp7⟩
    · rw [he]
      exact ⟨by simp, by simp, by simp, hp4, hp5, hp6, hp7⟩
    · rw [he]
      refine ⟨by simp, by simp, by simp, hp4, hp5, Or.inr ⟨hne, ?_⟩, hp7⟩
      intro x hx
      exact ⟨hp1 x hx, hstk x hx⟩
    · rw [he]
      exact ⟨by simp, by simp, by simp, hp4, hp5, hp6, hp7⟩
    · rw [he]
      exact ⟨by simp, by simp, by simp, hp4, hp5, hp6, hp7⟩
    · rw [he]
      refine ⟨by simp, by simp, by simp, hp4, hp5, Or.inr ⟨hne, ?_⟩, hp7⟩
      intro x hx
      exact ⟨hp1 x hx, hstk x hx⟩
    · rw [he]
      refine ⟨?_, ?_, ?_, ?_, ?_, ?_, ?_⟩
      · intro x hx
        rcases List.mem_append.mp hx with h1 | h1
        · exact hp1 x h1
        · simp at h1
          subst h1
          exact hc
      · intro hlt x hx
        rcases List.mem_append.mp hx with h1 | h1
        · exact hstk x h1
        · simp at h1
          subst h1
          exact runeAt_sb hsb hr (by simpa using hlt)
      · rw [show (cfg.curStack ++ [c]).dropLast = cfg.curStack by simp]
        exact hstk
      · simpa [noteErr_eq] using hp4
      · simpa [noteErr_eq] using hp5
      · simpa [noteErr_eq] using hp6
      · simpa [noteErr_eq] using hp7
  · rcases step_drive_cases hst hs with ⟨c, hr, hcase⟩
    have hi := (runeAt_some hr).2
    have hstk := hp2 hi
    rcases hcase with ⟨d, hd, -, he⟩ | he
    · rw [he]
      exact ⟨hp1, fun _ => hstk, hp3, hp4,
        Or.inr ⟨d, rfl, isDriveLetter_toNat hd⟩, hp6, hp7⟩
    · rw [he]
      exact ⟨hp1, fun _ => hstk, hp3, hp4, hp5, hp6, hp7⟩
  · rcases step_pc_cases hst hs with ⟨c, hr, hcase⟩
    have hi := (runeAt_some hr).2
    have hstk := hp2 hi
    rcases hcase with ⟨-, hne, he⟩ | ⟨-, -, he⟩ | ⟨hc, he⟩
    · rw [he]
      refine ⟨by simp, by simp, by simp, hp4, hp5, hp6, ?_⟩
      intro t ht
      rcases List.mem_append.mp ht with h1 | h1
      · exact hp7 t h1
      · simp at h1
        subst h1
        refine ⟨hne, ?_⟩
        intro x hx
        exact ⟨hp1 x hx, hstk x hx⟩
    · rw [he]
      exact ⟨hp1, fun _ => hstk, hp3, hp4, hp5, hp6, hp7⟩
    · rw [he]
      refine ⟨?_, ?_, ?_, ?_, ?_, ?_, ?_⟩
      · intro x hx
        rcases List.mem_append.mp hx with h1 | h1
        · exact hp1 x h1
        · simp at h1
          subst h1
          exact hc
      · intro hlt x hx
        rcases List.mem_append.mp hx with h1 | h1
        · exact hstk x h1
        · simp at h1
          subst h1
          exact runeAt_sb hsb hr (by simpa using hlt)
      · rw [show (cfg.curStack ++ [c]).dropLast = cfg.curStack by simp]
        exact hstk
      · simpa [noteErr_eq] using hp4
      · simpa [noteErr_eq] using hp5
      · simpa [noteErr_eq] using hp6
      · simpa [noteErr_eq] using hp7

theorem parse_shape {s : String} {p : PathImpl} (h : newPathImpl s = some p) :
    (p.device = "" ∨ ∃ d, p.device = String.mk [d] ∧ 65 ≤ d.toNat ∧ d.toNat ≤ 90) ∧
    (p.node = "" ∨ goodComp p.node) ∧
    (∀ t ∈ p.dirs, goodComp t) ∧
    (∀ c ∈ p.name.data, ¬ c = '\\') ∧
    (∀ c ∈ p.name.data.dropLast, utf8Size c = 1) := by
  obtain ⟨cfg, hb, hsb, hrun, hp⟩ := newPathImpl_ok h
  have hinv : shapeInv (s.data.length : Int) cfg :=
    runLoop_inv (P := shapeInv (s.data.length : Int))
      (fun c c' hc hs => step_shapeInv hsb hc hs)
      (enoughFuel s.data) _ cfg
      (by
        refine ⟨by simp, by simp, by simp, rfl, Or.inl rfl, Or.inl rfl, by simp [emptyPath]⟩)
      hrun
  obtain ⟨h1, h2, h3, h4, h5, h6, h7⟩ := hinv
  obtain ⟨l2, hcl⟩ := checkLength_exists s (finishName cfg.curStack cfg.path)
  have hfields : p.device = (finishName cfg.curStack cfg.path).device ∧
      p.node = (finishName cfg.curStack cfg.path).node ∧
      p.dirs = (finishName cfg.curStack cfg.path).dirs ∧
      p.name = (finishName cfg.curStack cfg.path).name := by
    rw [hp, hcl]
    exact ⟨rfl, rfl, rfl, rfl⟩
  obtain ⟨hfd, hfn, hfdir, hfname⟩ := hfields
  rw [finishName_eq] at hfd hfn hfdir hfname
  rcases hstk : cfg.curStack with _ | ⟨a, l⟩
  · rw [hstk] at hfd hfn hfdir hfname
    simp only [List.length_nil, gt_iff_lt, lt_self_iff_false, if_false] at hfd hfn hfdir hfname
    rw [hfd, hfn, hfdir, hfname, h4]
    refine ⟨h5, h6, h7, by simp, by simp⟩
  · rw [hstk] at hfd hfn hfdir hfname
    simp only [List.length_cons, gt_iff_lt, Nat.zero_lt_succ, if_true] at hfd hfn hfdir hfname
    rw [hfd, hfn, hfdir, hfname]
    refine ⟨h5, h6, h7, ?_, ?_⟩
    · intro c hc
      rw [hstk] at h1
      exact h1 c (by simpa using hc)
    · intro c hc
      rw [hstk] at h3
      exact h3 c (by simpa using hc)

/-! ### The serializer at the scalar level -/

theorem sepJoin_data (l : List String) :
    (sepJoin l).data = joinComps (l.map String.data) := by
  induction l with
  | nil => rfl
  | cons d rest ih =>
    show (("\\" ++ d ++ sepJoin rest)).data = _
    rw [String.data_append, String.data_append, ih]
    simp [joinComps]

theorem toString_data (p : PathImpl) :
    (PathImpl.ToString p).data =
      (if 0 < p.device.length then p.device.data ++ [':'] else []) ++
      ((if 0 < p.node.length then '\\' :: '\\' :: p.node.data else []) ++
        (joinComps (p.dirs.map String.data) ++
          ((if 0 < p.name.length then '\\' :: p.name.data else []) ++
            (if p.dirs = [] ∧ p.name.length = 0 then ['\\'] else [])))) := by
  rw [toString_shape]
  rw [String.data_append, String.data_append, String.data_append, String.data_append]
  rw [sepJoin_data]
  congr 1
  · split_ifs <;> simp [String.data_append]
  · congr 1
    · split_ifs <;> simp [String.data_append]
    · congr 2
      · split_ifs <;> simp [String.data_append]
      · split_ifs <;> simp

/-! ### End-of-run bookkeeping for flushed components -/

theorem finalStack_last (nm : List Char) :
    ∀ (ds : List (List Char)) (stack : List Char), finalStack stack (ds ++ [nm]) = nm := by
  intro ds
  induction ds with
  | nil => intro stack; rfl
  | cons d rest ih => intro stack; exact ih d

theorem flushDirs_last (nm : List Char) :
    ∀ (ds : List (List Char)) (stack : List Char), stack ≠ [] → (∀ d ∈ ds, d ≠ []) →
      flushDirs stack (ds ++ [nm]) = String.mk stack :: ds.map String.mk := by
  intro ds
  induction ds with
  | nil =>
    intro stack hne _
    rw [List.nil_append, flushDirs_cons, if_neg hne]
    rfl
  | cons d rest ih =>
    intro stack hne hds
    rw [List.cons_append, flushDirs_cons, if_neg hne,
      ih d (hds d (by simp)) (fun x hx => hds x (by simp [hx]))]
    rfl

theorem flushDirs_nil_start (nm : List Char) (ds : List (List Char))
    (hds : ∀ d ∈ ds, d ≠ []) :
    flushDirs [] (ds ++ [nm]) = ds.map String.mk := by
  rcases ds with _ | ⟨d, rest⟩
  · rfl
  · rw [List.cons_append, flushDirs_cons, if_pos rfl, List.nil_append,
      flushDirs_last nm rest d (hds d (by simp)) (fun x hx => hds x (by simp [hx]))]
    rfl

/-! ### Further `joinComps` algebra -/

theorem joinComps_cons (x : List Char) (l : List (List Char)) :
    joinComps (x :: l) = '\\' :: (x ++ joinComps l) := by
  simp [joinComps]

theorem joinComps_append (a b : List (List Char)) :
    joinComps (a ++ b) = joinComps a ++ joinComps b := by
  simp [joinComps]

theorem joinComps_singleton (x : List Char) : joinComps [x] = '\\' :: x := by
  simp [joinComps]

theorem map_mk_data (l : List String) : (l.map String.data).map String.mk = l := by
  induction l with
  | nil => rfl
  | cons a t ih =>
    rw [List.map_cons, List.map_cons, ih]

theorem joinComps_sb {l : List (List Char)} (h : ∀ x ∈ l, ∀ c ∈ x, utf8Size c = 1) :
    ∀ c ∈ joinComps l, utf8Size c = 1 := by
  induction l with
  | nil =>
    intro c hc
    rw [show joinComps [] = [] from rfl] at hc
    simp at hc
  | cons x t ih =>
    intro c hc
    rw [joinComps_cons] at hc
    rcases List.mem_cons.mp hc with rfl | hc2
    · decide
    · rcases List.mem_append.mp hc2 with h1 | h1
      · exact h x (by simp) c h1
      · exact ih (fun y hy c2 hc3 => h y (by simp [hy]) c2 hc3) c h1

theorem sbButLast_sep_cons {nm : List Char} (hne : ¬ nm = [])
    (hnm : ∀ c ∈ nm.dropLast, utf8Size c = 1) : sbButLast ('\\' :: nm) := by
  intro c hc
  have hsplit : ('\\' :: nm) = ['\\'] ++ nm := rfl
  rw [hsplit, List.dropLast_append_of_ne_nil _ hne] at hc
  rcases List.mem_append.mp hc with h1 | h1
  · have hc2 : c = '\\' := by simpa using h1
    subst hc2
    decide
  · exact hnm c h1

theorem head_tail_comps (ds : List String) (nm : String)
    (hds : ∀ d ∈ ds, goodComp d) (hnm : ¬ nm.data = [])
    (hfree : ∀ c ∈ nm.data, ¬ c = '\\') :
    ∃ c tl, joinComps (ds.map String.data ++ [nm.data]) = '\\' :: c :: tl ∧ ¬ c = '\\' := by
  rcases ds with _ | ⟨d0, ds2⟩
  · rcases hc : nm.data with _ | ⟨c, t⟩
    · exact absurd hc hnm
    · refine ⟨c, t, ?_, hfree c (by rw [hc]; simp)⟩
      rw [show List.map String.data ([] : List String) ++ [c :: t] = [c :: t] from rfl,
        joinComps_singleton]
  · have hd0 := hds d0 (by simp)
    rcases hc : d0.data with _ | ⟨c, t⟩
    · exact absurd hc hd0.1
    · refine ⟨c, t ++ joinComps (ds2.map String.data ++ [nm.data]), ?_, ?_⟩
      · have hsplit : (d0 :: ds2).map String.data ++ [nm.data] =
            d0.data :: (ds2.map String.data ++ [nm.data]) := rfl
        rw [hsplit, joinComps_cons, hc, List.cons_append]
      · exact fun hcon => (hd0.2 c (by rw [hc]; simp)).1 hcon

/-! ### Running the loop over a serialized path -/

theorem run_lead_drive {arr : List Char} {d : Char} {rest : List Char} (f : Nat)
    (h1 : 65 ≤ d.toNat) (h2 : d.toNat ≤ 90)
    (harr : arr = d :: ':' :: rest) (hr2 : runeAt arr 2 = some '\\') :
    runLoop arr (f + 2) ⟨0, stateStart, substateStart, [], emptyPath⟩ =
      runLoop arr f ⟨2, statePathComponent, substateStart, [],
        ⟨"", String.mk [d], "", [], true, false, false, []⟩⟩ := by
  have hr0 : runeAt arr 0 = some d := runeAt_of_drop (by norm_num) (by rw [harr]; rfl)
  have hi0 : (0 : Int) < (arr.length : Int) := (runeAt_some hr0).2
  have hstep1 := @step_start_other arr 0 substateStart [] emptyPath d hr0 (upper_ne_sep h2)
  have hfe : f + 2 = (f + 1) + 1 := rfl
  rw [hfe, runLoop_step (f + 1) hi0 hstep1]
  have hr1 : runeAt arr 1 = some ':' := runeAt_of_drop (by norm_num) (by rw [harr]; rfl)
  have hstep2 := @step_drive_hit arr 0 substateStart [] emptyPath d d hr0
    (isDriveLetter_upper h1 h2) hr1
  rw [runLoop_step f hi0 hstep2]
  have h02 : (0 : Int) + 2 = 2 := by norm_num
  rw [h02, if_pos hr2]
  rfl

theorem run_lead_root {arr : List Char} {rest : List Char} (f : Nat)
    (harr : arr = '\\' :: rest) (hr2 : ¬ runeAt arr 1 = some '\\') :
    runLoop arr (f + 1) ⟨0, stateStart, substateStart, [], emptyPath⟩ =
      runLoop arr f ⟨1, statePathComponent, substateStart, [],
        ⟨"", "", "", [], true, false, false, []⟩⟩ := by
  have hr0 : runeAt arr 0 = some '\\' := runeAt_of_drop (by norm_num) (by rw [harr]; rfl)
  have hi0 : (0 : Int) < (arr.length : Int) := (runeAt_some hr0).2
  have h01 : (0 : Int) + 1 = 1 := by norm_num
  have hstep1 := @step_start_abs arr 0 substateStart [] emptyPath hr0 (by rw [h01]; exact hr2)
  rw [runLoop_step f hi0 hstep1, h01]
  rfl

theorem run_lead_unc {arr : List Char} {nd : String} {rest : List Char} (f : Nat)
    (hnd : ¬ nd.data = []) (hfree : ∀ c ∈ nd.data, ¬ c = '\\') (hq : ¬ nd = "?")
    (harr : arr = '\\' :: '\\' :: (nd.data ++ '\\' :: rest)) :
    runLoop arr (f + (nd.data.length + 2)) ⟨0, stateStart, substateStart, [], emptyPath⟩ =
      runLoop arr f ⟨(nd.data.length : Int) + 3, statePathComponent, substateStart, [],
        ⟨nd, "", "", [], false, true, false, nd.data.filterMap isPathNameLetter⟩⟩ := by
  have hr0 : runeAt arr 0 = some '\\' := runeAt_of_drop (by norm_num) (by rw [harr]; rfl)
  have hr1 : runeAt arr 1 = some '\\' := runeAt_of_drop (by norm_num) (by rw [harr]; rfl)
  have hi0 : (0 : Int) < (arr.length : Int) := (runeAt_some hr0).2
  have hstep1 := @step_start_unc arr 0 substateStart [] emptyPath hr0 hr1
  have hfe : f + (nd.data.length + 2) = ((f + 1) + nd.data.length) + 1 := by omega
  rw [hfe, runLoop_step ((f + 1) + nd.data.length) hi0 hstep1]
  have hd2 : arr.drop ((0 : Int) + 2).toNat = nd.data ++ ('\\' :: rest) := by
    rw [harr]
    rfl
  rw [run_accum (Or.inr rfl) nd.data hfree ((0 : Int) + 2) substateStart [] emptyPath
    (f + 1) ('\\' :: rest) (by norm_num) hd2]
  rw [List.nil_append, foldl_noteErr]
  have harr2 : arr = ('\\' :: '\\' :: nd.data) ++ ('\\' :: rest) := by
    rw [harr]
    simp
  have hc3 : ((0 : Int) + 2 + (nd.data.length : Int)).toNat =
      ('\\' :: '\\' :: nd.data).length := by
    simp only [List.length_cons]
    omega
  have hd3 : arr.drop ((0 : Int) + 2 + (nd.data.length : Int)).toNat = '\\' :: rest := by
    rw [hc3, harr2, List.drop_left]
  have hr3 : runeAt arr ((0 : Int) + 2 + (nd.data.length : Int)) = some '\\' :=
    runeAt_of_drop (by omega) hd3
  have hi3 : (0 : Int) + 2 + (nd.data.length : Int) < (arr.length : Int) := (runeAt_some hr3).2
  have hstep2 := @step_unc_node arr ((0 : Int) + 2 + (nd.data.length : Int)) substateStart
    nd.data { emptyPath with errs := emptyPath.errs ++ nd.data.filterMap isPathNameLetter }
    rfl hr3 hnd hq
  rw [runLoop_step f hi3 hstep2]
  have hidx : (0 : Int) + 2 + (nd.data.length : Int) + 1 = (nd.data.length : Int) + 3 := by
    omega
  rw [hidx]
  rfl

theorem run_tail_sep {arr : List Char} {i : Int} {sub : ParseSubState} {q : PathImpl} (f : Nat)
    (h0 : 0 ≤ i) (hd : arr.drop i.toNat = ['\\']) :
    runLoop arr (f + 1) ⟨i, statePathComponent, sub, [], q⟩ =
      Res.ok ⟨i + 1, statePathComponent, sub, [], { q with dirs := q.dirs ++ [] }⟩ := by
  have hr : runeAt arr i = some '\\' := runeAt_of_drop h0 (by rw [hd])
  have hi : i < (arr.length : Int) := (runeAt_some hr).2
  have hsep := @step_sep_pc arr i sub [] q hr
  rw [runLoop_step f hi hsep]
  have hd2 : arr.drop (i + 1).toNat = [] := by
    rw [drop_toNat_succ h0, hd]
    rfl
  exact run_to_exit (by omega) hd2

theorem run_comps_end {arr : List Char} (ds : List String) (nm : String)
    (hds : ∀ d ∈ ds, goodComp d) (hnm : ¬ nm.data = [])
    (hfree : ∀ c ∈ nm.data, ¬ c = '\\') :
    ∀ (i : Int) (sub : ParseSubState) (q : PathImpl) (f : Nat),
      0 ≤ i → arr.drop i.toNat = joinComps (ds.map String.data ++ [nm.data]) →
      ∃ E, runLoop arr (f + (joinComps (ds.map String.data ++ [nm.data])).length)
          ⟨i, statePathComponent, sub, [], q⟩ =
        runLoop arr f ⟨i + ((joinComps (ds.map String.data ++ [nm.data])).length : Int),
          statePathComponent, sub, nm.data,
          ⟨q.node, q.device, q.name, q.dirs ++ ds, q.absolute, q.unc, q.unicode, E⟩⟩ := by
  intro i sub q f h0 hdrop
  have hwf : ∀ x ∈ ds.map String.data ++ [nm.data], x ≠ [] ∧ ∀ c ∈ x, ¬ c = '\\' := by
    intro x hx
    rcases List.mem_append.mp hx with h1 | h1
    · obtain ⟨d1, hd1, rfl⟩ := List.mem_map.mp h1
      have hg := hds d1 hd1
      exact ⟨hg.1, fun c hc => (hg.2 c hc).1⟩
    · have hx2 : x = nm.data := by simpa using h1
      subst hx2
      exact ⟨hnm, hfree⟩
  obtain ⟨E, hE⟩ := run_comps (ds.map String.data ++ [nm.data]) i sub [] q f hwf h0 hdrop
  refine ⟨E, ?_⟩
  rw [hE, finalStack_last, flushDirs_nil_start nm.data (ds.map String.data)
    (fun x hx => by
      obtain ⟨d1, hd1, rfl⟩ := List.mem_map.mp hx
      exact (hds d1 hd1).1), map_mk_data]

theorem run_after_sep {arr : List Char} (ds : List String) (nm : String)
    (hds : ∀ d ∈ ds, goodComp d) (hnm : ¬ nm.data = [])
    (hfree : ∀ c ∈ nm.data, ¬ c = '\\') :
    ∀ (i : Int) (sub : ParseSubState) (q : PathImpl) (f : Nat) (tl : List Char),
      0 ≤ i → joinComps (ds.map String.data ++ [nm.data]) = '\\' :: tl →
      arr.drop i.toNat = tl →
      ∃ E, runLoop arr (f + tl.length) ⟨i, statePathComponent, sub, [], q⟩ =
        runLoop arr f ⟨i + (tl.length : Int), statePathComponent, sub, nm.data,
          ⟨q.node, q.device, q.name, q.dirs ++ ds, q.absolute, q.unc, q.unicode, E⟩⟩ := by
  intro i sub q f tl h0 hj hdrop
  rcases ds with _ | ⟨d0, ds2⟩
  · have hj2 : joinComps (([] : List String).map String.data ++ [nm.data]) =
        '\\' :: nm.data := by
      rw [show ([] : List String).map String.data ++ [nm.data] = [nm.data] from rfl,
        joinComps_singleton]
    rw [hj2] at hj
    have htl : tl = nm.data := ((List.cons.inj hj).2).symm
    subst htl
    refine ⟨q.errs ++ nm.data.filterMap isPathNameLetter, ?_⟩
    rw [run_accum (Or.inl rfl) nm.data hfree i sub [] q f [] h0
      (by rw [hdrop]; exact (List.append_nil _).symm)]
    rw [List.nil_append, foldl_noteErr, List.append_nil]
  · have hsplit : (d0 :: ds2).map String.data ++ [nm.data] =
        d0.data :: (ds2.map String.data ++ [nm.data]) := rfl
    have hj2 : '\\' :: (d0.data ++ joinComps (ds2.map String.data ++ [nm.data])) =
        '\\' :: tl := by
      rw [← hj, hsplit, joinComps_cons]
    have htl : tl = d0.data ++ joinComps (ds2.map String.data ++ [nm.data]) :=
      ((List.cons.inj hj2).2).symm
    subst htl
    have hgood0 := hds d0 (by simp)
    have hfree0 : ∀ c ∈ d0.data, ¬ c = '\\' := fun c hc => (hgood0.2 c hc).1
    have hwf2 : ∀ x ∈ ds2.map String.data ++ [nm.data], x ≠ [] ∧ ∀ c ∈ x, ¬ c = '\\' := by
      intro x hx
      rcases List.mem_append.mp hx with h1 | h1
      · obtain ⟨d1, hd1, rfl⟩ := List.mem_map.mp h1
        have hg := hds d1 (by simp [hd1])
        exact ⟨hg.1, fun c hc => (hg.2 c hc).1⟩
      · have hx2 : x = nm.data := by simpa using h1
        subst hx2
        exact ⟨hnm, hfree⟩
    have hfuel : f + (d0.data ++ joinComps (ds2.map String.data ++ [nm.data])).length =
        (f + (joinComps (ds2.map String.data ++ [nm.data])).length) + d0.data.length := by
      rw [List.length_append]
      omega
    rw [hfuel]
    rw [run_accum (Or.inl rfl) d0.data hfree0 i sub [] q
      (f + (joinComps (ds2.map String.data ++ [nm.data])).length)
      (joinComps (ds2.map String.data ++ [nm.data])) h0 hdrop]
    rw [List.nil_append, foldl_noteErr]
    have hdrop2 : arr.drop (i + (d0.data.length : Int)).toNat =
        joinComps (ds2.map String.data ++ [nm.data]) := by
      have he : (i + (d0.data.length : Int)).toNat = i.toNat + d0.data.length := by omega
      rw [he, ← List.drop_drop, hdrop, List.drop_left]
    obtain ⟨E2, hrest⟩ := run_comps (ds2.map String.data ++ [nm.data])
      (i + (d0.data.length : Int)) sub d0.data
      { q with errs := q.errs ++ d0.data.filterMap isPathNameLetter } f hwf2 (by omega) hdrop2
    refine ⟨E2, ?_⟩
    rw [hrest]
    rw [finalStack_last, flushDirs_last nm.data (ds2.map String.data) d0.data hgood0.1
      (fun x hx => by
        obtain ⟨d1, hd1, rfl⟩ := List.mem_map.mp hx
        exact (hds d1 (by simp [hd1])).1)]
    rw [map_mk_data]
    have hidx : i + (d0.data.length : Int) +
        ((joinComps (ds2.map String.data ++ [nm.data])).length : Int) =
        i + ((d0.data ++ joinComps (ds2.map String.data ++ [nm.data])).length : Int) := by
      rw [List.length_append]
      push_cast
      ring
    rw [hidx]

/-- A successful run of the loop determines the parse result. -/
theorem roundtrip_of_run {t : String} {cfg : Config}
    (hsb : sbButLast t.data)
    (hrun : runLoop t.data (enoughFuel t.data)
      ⟨0, stateStart, substateStart, [], emptyPath⟩ = Res.ok cfg) :
    ∃ q : PathImpl, newPathImpl t = some q ∧
      q.device = (finishName cfg.curStack cfg.path).device ∧
      q.node = (finishName cfg.curStack cfg.path).node ∧
      q.dirs = (finishName cfg.curStack cfg.path).dirs ∧
      q.name = (finishName cfg.curStack cfg.path).name := by
  have hnp : newPathImpl t = some (checkLength t (finishName cfg.curStack cfg.path)) := by
    unfold newPathImpl
    rw [buildRuneArray_ok hsb]
    simp only
    rw [hrun]
  obtain ⟨l2, hcl⟩ := checkLength_exists t (finishName cfg.curStack cfg.path)
  exact ⟨_, hnp, by rw [hcl], by rw [hcl], by rw [hcl], by rw [hcl]⟩

/-- A run that exits in the path-component state determines all four
components of the parse result. -/
theorem roundtrip_fields {t : String} {i : Int} {sub : ParseSubState} {stack : List Char}
    {qf : PathImpl} (hsb : sbButLast t.data)
    (hrun : runLoop t.data (enoughFuel t.data)
      ⟨0, stateStart, substateStart, [], emptyPath⟩ =
        Res.ok ⟨i, statePathComponent, sub, stack, qf⟩) :
    ∃ p2 : PathImpl, newPathImpl t = some p2 ∧
      p2.device = qf.device ∧ p2.node = qf.node ∧ p2.dirs = qf.dirs ∧
      p2.name = (if stack.length > 0 then String.mk stack else qf.name) := by
  obtain ⟨p2, hq, hqd, hqn, hqdir, hqnm⟩ := roundtrip_of_run hsb hrun
  rw [finishName_eq] at hqd hqn hqdir hqnm
  by_cases hstk : stack.length > 0
  · rw [if_pos hstk] at hqd hqn hqdir hqnm
    rw [if_pos hstk]
    exact ⟨p2, hq, hqd, hqn, hqdir, hqnm⟩
  · rw [if_neg hstk] at hqd hqn hqdir hqnm
    rw [if_neg hstk]
    exact ⟨p2, hq, hqd, hqn, hqdir, hqnm⟩

/-! ### Claim C8 -/

/-- C8: the ParsedPath returned by the parse entry point never records
both a device and a node — a path is local-drive-rooted or
host/share-rooted, never both. -/
theorem c8_device_node_exclusive (s : String) (p : PathImpl)
    (h : newPathImpl s = some p) : p.device = "" ∨ p.node = "" :=
  parse_me h

/-- Witness for C8 at a concrete drive-rooted input. -/
theorem c8_device_node_exclusive_witness :
    (⟨"", "C", "x", [], true, false, false, []⟩ : PathImpl).device = "" ∨
      (⟨"", "C", "x", [], true, false, false, []⟩ : PathImpl).node = "" :=
  c8_device_node_exclusive "C:\\x" ⟨"", "C", "x", [], true, false, false, []⟩ (by decide)

/-- Witness for C3's amended rule at a concrete short input. -/
theorem c3_length_check_amended_witness :
    (⟨"", "C", "x", [], true, false, false, []⟩ : PathImpl).errs.count errTooLongUnicode +
      (⟨"", "C", "x", [], true, false, false, []⟩ : PathImpl).errs.count errTooLong =
      if ((⟨"", "C", "x", [], true, false, false, []⟩ : PathImpl).unicode = true ∧
            goLen ("C:\\x").data > 32767) ∨
          ((⟨"", "C", "x", [], true, false, false, []⟩ : PathImpl).unicode = false ∧
            goLen ("C:\\x").data > 255)
        then 1 else 0 :=
  c3_length_check_amended "C:\\x" ⟨"", "C", "x", [], true, false, false, []⟩ (by decide)

/-! ### Claim C4 -/

/-- C4 counterexample: parsing `a\` records `a` as a directory entry with an
empty name; its canonical serialization is `\a`, and re-parsing that yields
`a` as the name with no directory entries, so device/node/dirs/name are not
reproduced for every input, refuting the unrestricted round-trip claim. -/
theorem c4_counterexample :
    ((newPathImpl "a\\").bind fun p =>
      (newPathImpl (PathImpl.ToString p)).map fun p2 =>
        (p.dirs, p.name, p2.dirs, p2.name)) =
      some (["a"], "", [], "a") := by decide

/-- C4, amended: re-parsing the canonical serialization of a parse result
reproduces its device, node, dirs and name, provided the node is not the
literal `?` (whose serialization re-reads as the extended-length marker) and
the result does not pair a non-empty dirs list with an empty name (whose
serialization ends in a separator that re-parses the last directory as the
name); the flags may differ. -/
theorem c4_roundtrip_amended {s : String} {p : PathImpl}
    (h : newPathImpl s = some p) (hque : ¬ p.node = "?")
    (hshape : ¬ p.name = "" ∨ p.dirs = []) :
    ∃ p2 : PathImpl, newPathImpl (PathImpl.ToString p) = some p2 ∧
      p2.device = p.device ∧ p2.node = p.node ∧ p2.dirs = p.dirs ∧
      p2.name = p.name := by
  obtain ⟨hdev5, hnode6, hdirs7, hnmfree, hnmsb⟩ := parse_shape h
  by_cases hdevE : p.device = ""
  · by_cases hndE : p.node = ""
    · by_cases hnmE : p.name = ""
      · -- no prefix, no components: the serialization is a lone separator
        have hdirs0 : p.dirs = [] := by
          rcases hshape with hx | hx
          · exact absurd hnmE hx
          · exact hx
        have harr : (PathImpl.ToString p).data = ['\\'] := by
          rw [toString_data, hdevE, hndE, hnmE, hdirs0]
          rw [if_neg (show ¬ 0 < ("" : String).length by decide)]
          rw [if_neg (show ¬ 0 < ("" : String).length by decide)]
          rw [if_neg (show ¬ 0 < ("" : String).length by decide)]
          rw [if_pos (show ([] : List String) = [] ∧ ("" : String).length = 0 from
            ⟨rfl, rfl⟩)]
          simp [joinComps]
        have hsb : sbButLast (PathImpl.ToString p).data := by
          rw [harr]
          intro c hc
          simp at hc
        have hF : enoughFuel (PathImpl.ToString p).data =
            (enoughFuel (PathImpl.ToString p).data - 1) + 1 := by
          unfold enoughFuel
          omega
        have hnone : runeAt (PathImpl.ToString p).data 1 = none := by
          rw [harr]
          rfl
        have hr2 : ¬ runeAt (PathImpl.ToString p).data 1 = some '\\' := by
          rw [hnone]
          simp
        have hdropE : (PathImpl.ToString p).data.drop ((1 : Int)).toNat = [] := by
          rw [harr]
          rfl
        obtain ⟨p2, hq, h2d, h2n, h2dir, h2nm⟩ := roundtrip_fields hsb (by
          rw [hF, run_lead_root _ harr hr2]
          exact run_to_exit (by norm_num) hdropE)
        refine ⟨p2, hq, ?_, ?_, ?_, ?_⟩
        · exact h2d.trans hdevE.symm
        · exact h2n.trans hndE.symm
        · exact h2dir.trans hdirs0.symm
        · exact h2nm.trans hnmE.symm
      · -- no prefix, with components
        have hnmne : ¬ p.name.data = [] := fun hcon => hnmE (by
          apply String.ext
          rw [hcon])
        have hpos : p.name.data.length > 0 := List.length_pos.mpr hnmne
        have hmid : ∀ c ∈ joinComps (p.dirs.map String.data), utf8Size c = 1 :=
          joinComps_sb (fun x hx c hc => by
            obtain ⟨d1, hd1, rfl⟩ := List.mem_map.mp hx
            exact ((hdirs7 d1 hd1).2 c hc).2)
        have hxform : (PathImpl.ToString p).data =
            joinComps (p.dirs.map String.data) ++ ('\\' :: p.name.data) := by
          rw [toString_data, hdevE, hndE]
          rw [if_neg (show ¬ 0 < ("" : String).length by decide)]
          rw [if_neg (show ¬ 0 < ("" : String).length by decide)]
          rw [if_pos (show 0 < p.name.length from string_ne_empty_iff.mp hnmE)]
          rw [if_neg (by
            rintro ⟨-, h0⟩
            have := string_ne_empty_iff.mp hnmE
            omega)]
          simp
        have hsb : sbButLast (PathImpl.ToString p).data := by
          rw [hxform]
          exact sbButLast_append hmid (sbButLast_sep_cons hnmne hnmsb)
        obtain ⟨c0, tl0, hj, hc0⟩ := head_tail_comps p.dirs p.name hdirs7 hnmne hnmfree
        have harrC2 : (PathImpl.ToString p).data =
            joinComps (p.dirs.map String.data ++ [p.name.data]) := by
          rw [hxform, joinComps_append, joinComps_singleton]
        have harrC3 : (PathImpl.ToString p).data = '\\' :: (c0 :: tl0) := by
          rw [harrC2, hj]
        have hr1C : runeAt (PathImpl.ToString p).data 1 = some c0 :=
          runeAt_of_drop (by norm_num) (by rw [harrC3]; rfl)
        have hr2C : ¬ runeAt (PathImpl.ToString p).data 1 = some '\\' := by
          rw [hr1C]
          intro hcon
          exact hc0 (Option.some.inj hcon)
        have hdropC : (PathImpl.ToString p).data.drop ((1 : Int)).toNat = c0 :: tl0 := by
          rw [harrC3]
          rfl
        have hlenC : (PathImpl.ToString p).data.length = (c0 :: tl0).length + 1 := by
          rw [harrC3]
          simp only [List.length_cons]
        have hF : enoughFuel (PathImpl.ToString p).data =
            ((enoughFuel (PathImpl.ToString p).data - ((c0 :: tl0).length + 1)) +
              (c0 :: tl0).length) + 1 := by
          unfold enoughFuel
          omega
        obtain ⟨E, htail⟩ := run_after_sep p.dirs p.name hdirs7 hnmne hnmfree 1
          substateStart ⟨"", "", "", [], true, false, false, []⟩
          (enoughFuel (PathImpl.ToString p).data - ((c0 :: tl0).length + 1))
          (c0 :: tl0) (by norm_num) hj hdropC
        have hdropEndC : (PathImpl.ToString p).data.drop
            ((1 : Int) + ((c0 :: tl0).length : Int)).toNat = [] := by
          have he2 : ((1 : Int) + ((c0 :: tl0).length : Int)).toNat =
              (PathImpl.ToString p).data.length := by omega
          rw [he2]
          exact List.drop_length _
        obtain ⟨p2, hq, h2d, h2n, h2dir, h2nm⟩ := roundtrip_fields hsb (by
          rw [hF, run_lead_root _ harrC3 hr2C, htail]
          exact run_to_exit (by omega) hdropEndC)
        refine ⟨p2, hq, ?_, ?_, ?_, ?_⟩
        · exact h2d.trans hdevE.symm
        · exact h2n.trans hndE.symm
        · exact h2dir.trans rfl
        · exact h2nm.trans ((if_pos hpos).trans rfl)
    · -- UNC node prefix
      have hndgood : goodComp p.node := hnode6.resolve_left hndE
      have hndne : ¬ p.node.data = [] := hndgood.1
      have hndfree : ∀ c ∈ p.node.data, ¬ c = '\\' := fun c hc => (hndgood.2 c hc).1
      by_cases hnmE : p.name = ""
      · -- node only: trailing separator after the node
        have hdirs0 : p.dirs = [] := by
          rcases hshape with hx | hx
          · exact absurd hnmE hx
          · exact hx
        have harrB : (PathImpl.ToString p).data =
            '\\' :: '\\' :: (p.node.data ++ ['\\']) := by
          rw [toString_data, hdevE, hnmE, hdirs0]
          rw [if_neg (show ¬ 0 < ("" : String).length by decide)]
          rw [if_pos (show 0 < p.node.length from string_ne_empty_iff.mp hndE)]
          rw [if_neg (show ¬ 0 < ("" : String).length by decide)]
          rw [if_pos (show ([] : List String) = [] ∧ ("" : String).length = 0 from
            ⟨rfl, rfl⟩)]
          simp [joinComps]
        have hsb : sbButLast (PathImpl.ToString p).data := by
          rw [harrB]
          apply sbButLast_of_sbAll
          intro c hc
          rcases List.mem_cons.mp hc with rfl | hc2
          · decide
          · rcases List.mem_cons.mp hc2 with rfl | hc3
            · decide
            · rcases List.mem_append.mp hc3 with h1 | h1
              · exact (hndgood.2 c h1).2
              · have hc4 : c = '\\' := by simpa using h1
                subst hc4
                decide
        have hlenB : (PathImpl.ToString p).data.length = p.node.data.length + 3 := by
          rw [harrB]
          simp only [List.length_cons, List.length_append, List.length_nil]
        have hF : enoughFuel (PathImpl.ToString p).data =
            (enoughFuel (PathImpl.ToString p).data - (p.node.data.length + 2)) +
              (p.node.data.length + 2) := by
          unfold enoughFuel
          omega
        have hdropEndB : (PathImpl.ToString p).data.drop
            ((p.node.data.length : Int) + 3).toNat = [] := by
          have he2 : ((p.node.data.length : Int) + 3).toNat =
              (PathImpl.ToString p).data.length := by omega
          rw [he2]
          exact List.drop_length _
        obtain ⟨p2, hq, h2d, h2n, h2dir, h2nm⟩ := roundtrip_fields hsb (by
          rw [hF, run_lead_unc _ hndne hndfree hque harrB]
          exact run_to_exit (by omega) hdropEndB)
        refine ⟨p2, hq, ?_, ?_, ?_, ?_⟩
        · exact h2d.trans hdevE.symm
        · exact h2n.trans rfl
        · exact h2dir.trans hdirs0.symm
        · exact h2nm.trans hnmE.symm
      · -- node prefix with components
        have hnmne : ¬ p.name.data = [] := fun hcon => hnmE (by
          apply String.ext
          rw [hcon])
        have hpos : p.name.data.length > 0 := List.length_pos.mpr hnmne
        have hmid : ∀ c ∈ joinComps (p.dirs.map String.data), utf8Size c = 1 :=
          joinComps_sb (fun x hx c hc => by
            obtain ⟨d1, hd1, rfl⟩ := List.mem_map.mp hx
            exact ((hdirs7 d1 hd1).2 c hc).2)
        have hxform : (PathImpl.ToString p).data =
            ('\\' :: '\\' :: p.node.data) ++
              (joinComps (p.dirs.map String.data) ++ ('\\' :: p.name.data)) := by
          rw [toString_data, hdevE]
          rw [if_neg (show ¬ 0 < ("" : String).length by decide)]
          rw [if_pos (show 0 < p.node.length from string_ne_empty_iff.mp hndE)]
          rw [if_pos (show 0 < p.name.length from string_ne_empty_iff.mp hnmE)]
          rw [if_neg (by
            rintro ⟨-, h0⟩
            have := string_ne_empty_iff.mp hnmE
            omega)]
          simp
        have hsb : sbButLast (PathImpl.ToString p).data := by
          rw [hxform]
          refine sbButLast_append ?_ (sbButLast_append hmid
            (sbButLast_sep_cons hnmne hnmsb))
          intro c hc
          rcases List.mem_cons.mp hc with rfl | hc2
          · decide
          · rcases List.mem_cons.mp hc2 with rfl | hc3
            · decide
            · exact (hndgood.2 c hc3).2
        obtain ⟨c0, tl0, hj, -⟩ := head_tail_comps p.dirs p.name hdirs7 hnmne hnmfree
        have harrB2 : (PathImpl.ToString p).data =
            '\\' :: '\\' :: (p.node.data ++
              joinComps (p.dirs.map String.data ++ [p.name.data])) := by
          rw [hxform, joinComps_append, joinComps_singleton]
          simp
        have harrB3 : (PathImpl.ToString p).data =
            '\\' :: '\\' :: (p.node.data ++ '\\' :: (c0 :: tl0)) := by
          rw [harrB2, hj]
        have harrB4 : (PathImpl.ToString p).data =
            ('\\' :: '\\' :: (p.node.data ++ ['\\'])) ++ (c0 :: tl0) := by
          rw [harrB3]
          simp
        have hlenB : (PathImpl.ToString p).data.length =
            p.node.data.length + (c0 :: tl0).length + 3 := by
          rw [harrB4]
          simp only [List.length_cons, List.length_append, List.length_nil]
          omega
        have hdropB : (PathImpl.ToString p).data.drop
            ((p.node.data.length : Int) + 3).toNat = c0 :: tl0 := by
          have he : ((p.node.data.length : Int) + 3).toNat =
              ('\\' :: '\\' :: (p.node.data ++ ['\\'])).length := by
            simp only [List.length_cons, List.length_append, List.length_nil]
            omega
          rw [he, harrB4, List.drop_left]
        have hF : enoughFuel (PathImpl.ToString p).data =
            ((enoughFuel (PathImpl.ToString p).data -
              ((c0 :: tl0).length + (p.node.data.length + 2))) + (c0 :: tl0).length) +
              (p.node.data.length + 2) := by
          unfold enoughFuel
          omega
        obtain ⟨E, htail⟩ := run_after_sep p.dirs p.name hdirs7 hnmne hnmfree
          ((p.node.data.length : Int) + 3) substateStart
          ⟨p.node, "", "", [], false, true, false, p.node.data.filterMap isPathNameLetter⟩
          (enoughFuel (PathImpl.ToString p).data -
            ((c0 :: tl0).length + (p.node.data.length + 2)))
          (c0 :: tl0) (by omega) hj hdropB
        have hdropEndB : (PathImpl.ToString p).data.drop
            (((p.node.data.length : Int) + 3) + ((c0 :: tl0).length : Int)).toNat = [] := by
          have he2 : (((p.node.data.length : Int) + 3) + ((c0 :: tl0).length : Int)).toNat =
              (PathImpl.ToString p).data.length := by omega
          rw [he2]
          exact List.drop_length _
        obtain ⟨p2, hq, h2d, h2n, h2dir, h2nm⟩ := roundtrip_fields hsb (by
          rw [hF, run_lead_unc _ hndne hndfree hque harrB3, htail]
          exact run_to_exit (by omega) hdropEndB)
        refine ⟨p2, hq, ?_, ?_, ?_, ?_⟩
        · exact h2d.trans hdevE.symm
        · exact h2n.trans rfl
        · exact h2dir.trans rfl
        · exact h2nm.trans ((if_pos hpos).trans rfl)
  · -- drive prefix
    have hndA : p.node = "" := (parse_me h).resolve_left hdevE
    obtain ⟨d, hdevmk, hd65, hd90⟩ := hdev5.resolve_left hdevE
    by_cases hnmE : p.name = ""
    · -- drive only: trailing separator after the colon
      have hdirs0 : p.dirs = [] := by
        rcases hshape with hx | hx
        · exact absurd hnmE hx
        · exact hx
      have harr : (PathImpl.ToString p).data = [d, ':', '\\'] := by
        rw [toString_data, hdevmk, hndA, hnmE, hdirs0]
        rw [if_pos (show 0 < (String.mk [d]).length from Nat.one_pos)]
        rw [if_neg (show ¬ 0 < ("" : String).length by decide)]
        rw [if_neg (show ¬ 0 < ("" : String).length by decide)]
        rw [if_pos (show ([] : List String) = [] ∧ ("" : String).length = 0 from
          ⟨rfl, rfl⟩)]
        rw [show (String.mk [d]).data = [d] from rfl]
        simp [joinComps]
      have hsb : sbButLast (PathImpl.ToString p).data := by
        rw [harr]
        apply sbButLast_of_sbAll
        intro c hc
        rcases List.mem_cons.mp hc with rfl | hc2
        · exact upper_sb hd90
        · rcases List.mem_cons.mp hc2 with rfl | hc3
          · decide
          · have hc4 : c = '\\' := by simpa using hc3
            subst hc4
            decide
      have hr2A : runeAt (PathImpl.ToString p).data 2 = some '\\' :=
        runeAt_of_drop (by norm_num) (by rw [harr]; rfl)
      have hdropSep : (PathImpl.ToString p).data.drop ((2 : Int)).toNat = ['\\'] := by
        rw [harr]
        rfl
      have hF : enoughFuel (PathImpl.ToString p).data =
          ((enoughFuel (PathImpl.ToString p).data - 3) + 1) + 2 := by
        unfold enoughFuel
        omega
      obtain ⟨p2, hq, h2d, h2n, h2dir, h2nm⟩ := roundtrip_fields hsb (by
        rw [hF, run_lead_drive _ hd65 hd90 harr hr2A]
        exact run_tail_sep _ (by norm_num) hdropSep)
      refine ⟨p2, hq, ?_, ?_, ?_, ?_⟩
      · exact h2d.trans hdevmk.symm
      · exact h2n.trans hndA.symm
      · exact h2dir.trans hdirs0.symm
      · exact h2nm.trans hnmE.symm
    · -- drive prefix with components
      have hnmne : ¬ p.name.data = [] := fun hcon => hnmE (by
        apply String.ext
        rw [hcon])
      have hpos : p.name.data.length > 0 := List.length_pos.mpr hnmne
      have hmid : ∀ c ∈ joinComps (p.dirs.map String.data), utf8Size c = 1 :=
        joinComps_sb (fun x hx c hc => by
          obtain ⟨d1, hd1, rfl⟩ := List.mem_map.mp hx
          exact ((hdirs7 d1 hd1).2 c hc).2)
      have hxform : (PathImpl.ToString p).data =
          [d, ':'] ++ (joinComps (p.dirs.map String.data) ++ ('\\' :: p.name.data)) := by
        rw [toString_data, hdevmk, hndA]
        rw [if_pos (show 0 < (String.mk [d]).length from Nat.one_pos)]
        rw [if_neg (show ¬ 0 < ("" : String).length by decide)]
        rw [if_pos (show 0 < p.name.length from string_ne_empty_iff.mp hnmE)]
        rw [if_neg (by
          rintro ⟨-, h0⟩
          have := string_ne_empty_iff.mp hnmE
          omega)]
        rw [show (String.mk [d]).data = [d] from rfl]
        simp
      have hsb : sbButLast (PathImpl.ToString p).data := by
        rw [hxform]
        refine sbButLast_append ?_ (sbButLast_append hmid
          (sbButLast_sep_cons hnmne hnmsb))
        intro c hc
        rcases List.mem_cons.mp hc with rfl | hc2
        · exact upper_sb hd90
        · have hc3 : c = ':' := by simpa using hc2
          subst hc3
          decide
      obtain ⟨c0, tl0, hj, -⟩ := head_tail_comps p.dirs p.name hdirs7 hnmne hnmfree
      have harrA2 : (PathImpl.ToString p).data =
          d :: ':' :: joinComps (p.dirs.map String.data ++ [p.name.data]) := by
        rw [hxform, joinComps_append, joinComps_singleton]
        simp
      have hdropA : (PathImpl.ToString p).data.drop ((2 : Int)).toNat =
          joinComps (p.dirs.map String.data ++ [p.name.data]) := by
        rw [harrA2]
        rfl
      have hr2A : runeAt (PathImpl.ToString p).data 2 = some '\\' := by
        apply runeAt_of_drop (by norm_num)
        rw [hdropA, hj]
      have hlenA : (PathImpl.ToString p).data.length =
          (joinComps (p.dirs.map String.data ++ [p.name.data])).length + 2 := by
        rw [harrA2]
        simp only [List.length_cons]
      have hF : enoughFuel (PathImpl.ToString p).data =
          ((enoughFuel (PathImpl.ToString p).data -
            ((joinComps (p.dirs.map String.data ++ [p.name.data])).length + 2)) +
            (joinComps (p.dirs.map String.data ++ [p.name.data])).length) + 2 := by
        unfold enoughFuel
        omega
      obtain ⟨E, hcomps⟩ := run_comps_end p.dirs p.name hdirs7 hnmne hnmfree 2
        substateStart ⟨"", String.mk [d], "", [], true, false, false, []⟩
        (enoughFuel (PathImpl.ToString p).data -
          ((joinComps (p.dirs.map String.data ++ [p.name.data])).length + 2))
        (by norm_num) hdropA
      have hdropEndA : (PathImpl.ToString p).data.drop
          ((2 : Int) +
            ((joinComps (p.dirs.map String.data ++ [p.name.data])).length : Int)).toNat =
          [] := by
        have he2 : ((2 : Int) +
            ((joinComps (p.dirs.map String.data ++ [p.name.data])).length : Int)).toNat =
            (PathImpl.ToString p).data.length := by omega
        rw [he2]
        exact List.drop_length _
      obtain ⟨p2, hq, h2d, h2n, h2dir, h2nm⟩ := roundtrip_fields hsb (by
        rw [hF, run_lead_drive _ hd65 hd90 harrA2 hr2A, hcomps]
        exact run_to_exit (by omega) hdropEndA)
      refine ⟨p2, hq, ?_, ?_, ?_, ?_⟩
      · exact h2d.trans hdevmk.symm
      · exact h2n.trans hndA.symm
      · exact h2dir.trans rfl
      · exact h2nm.trans ((if_pos hpos).trans rfl)

/-- Witness for the amended C4 at a concrete absolute file path. -/
theorem c4_roundtrip_amended_witness :
    ∃ p2 : PathImpl,
      newPathImpl (PathImpl.ToString (⟨"", "", "a", [], true, false, false, []⟩ : PathImpl)) =
        some p2 ∧
      p2.device = (⟨"", "", "a", [], true, false, false, []⟩ : PathImpl).device ∧
      p2.node = (⟨"", "", "a", [], true, false, false, []⟩ : PathImpl).node ∧
      p2.dirs = (⟨"", "", "a", [], true, false, false, []⟩ : PathImpl).dirs ∧
      p2.name = (⟨"", "", "a", [], true, false, false, []⟩ : PathImpl).name :=
  c4_roundtrip_amended (s := "\\a") (by decide) (by decide) (Or.inl (by decide))

end Windows
